import Mathlib

/-!
# Verification of the SkeletalMeshMerger skeleton-merge core

Shallow embedding of `Source/JrSkeletalMeshMerger/Private/JrSkeletalMergingLibrary.cpp`
(the skeleton/bone-hierarchy merge algorithm):

* `UE::SkeletonMerging::FMergedBoneHierarchy` (lines 49-115): `AddBone`,
  `PopulateSkeleton`, `RecursiveAddBones`.
* `UJrSkeletalMergingLibrary::MergeSkeletons` (lines 803-1090): source
  deduplication, per-bone path hashing, attachment re-homing for secondary
  skeleton roots, compatibility checking, transform adjustment, socket merging.
* `UJrSkeletalMergingLibrary::AddSockets` (lines 1886-1904).

Modelling decisions (each marked at its definition):
* Engine hash functions `GetTypeHash : FName -> uint32` and
  `HashCombine : uint32 -> uint32 -> uint32` are not part of this repository;
  they are modelled as the free term algebra `HashVal` (collision-free), which
  is the idealisation under which the code's hash-keyed maps behave as intended.
* `FName` is modelled as `String` (`NAME_None` prints as `"None"`); the
  engine's case-insensitive name comparison is not modelled (no claim
  depends on it).
* `TMap` is modelled as an association list where `Add` replaces the value of
  an existing key in place (preserving iteration order) and appends otherwise;
  `TSet` as a duplicate-free list where `Add` appends a missing element.
  Both match Unreal's insertion-order iteration.
* `FTransform` is modelled over `ℤ` (rotation quaternion, location, 3D scale);
  `TransformPosition` is `Rotate(Scale*V) + Translation` (unit-quaternion
  rotation by conjugation), `TransformRotation` is quaternion composition,
  matching the engine's definitions. `FTransform::Equals` is modelled as exact
  equality (the engine compares with a tolerance).
* Crashing behaviour (`FindChecked` on a missing key, out-of-bounds array
  access, dereferencing a null or uninitialised pointer) is modelled by
  propagating `Option.none`. The local variable `BoneNode` (line 871) is
  declared uninitialised per bone iteration but read for every bone of every
  secondary skeleton (line 955); its de-facto behaviour (the stack slot keeps
  the value assigned when the skeleton's root bone was matched against a node)
  is modelled by threading an `Option SCSNode` register through the bone loop,
  starting at `none` (= garbage) for each source.
-/

namespace SkeletalMeshMerger

/-- Free term algebra modelling the engine's `uint32` hash values as used by
the merge code: the literal `0`, `GetTypeHash` of a bone/socket name, and
`HashCombine`. Collision-free by construction (ideal hash). -/
inductive HashVal where
  | zero : HashVal
  | nameHash : String → HashVal
  | combine : HashVal → HashVal → HashVal
deriving DecidableEq, Repr

/-- `HashCombine(0, 0)`: the synthetic parent path key of a root bone
(cpp lines 73-74 and 916-919 with both lookups defaulting to zero). -/
def rootParentHash : HashVal := .combine .zero .zero

/-- Last character is a path separator. Mirrors the check inside
`FString::PathAppend` (skip adding `/` when the string already ends in
`/` or `\`). -/
def endsWithSlash (a : String) : Bool :=
  match a.data.getLast? with
  | some '/' => true
  | some '\x5c' => true
  | _ => false

/-- `FString::operator/` (`PathAppend`): appends `/` between the operands
unless the left side is empty or already ends in a separator. Used by the
merge code as `Name.ToString() / "1"` (cpp lines 868, 881, 912). -/
def pathAppend (a b : String) : String :=
  if a.isEmpty then b
  else if endsWithSlash a then a ++ b else a ++ "/" ++ b

/-- `FName::IsNone` after reconstruction from a string: true for the `None`
name or the empty string (case-insensitivity not modelled). -/
def isNoneName (s : String) : Bool := s = "None" || s = ""

/-! ## Association maps (TMap) and sets (TSet) -/

/-- `TMap::Find` returning the value for a key. -/
def mapFind? {α β : Type} [DecidableEq α] : List (α × β) → α → Option β
  | [], _ => none
  | (k, v) :: rest, key => if k = key then some v else mapFind? rest key

/-- `TMap::Add`: replaces the value of an existing key in place, otherwise
appends a new entry (preserving Unreal's insertion-order iteration). -/
def mapAdd {α β : Type} [DecidableEq α] : List (α × β) → α → β → List (α × β)
  | [], key, v => [(key, v)]
  | (k, w) :: rest, key, v =>
      if k = key then (k, v) :: rest else (k, w) :: mapAdd rest key v

/-- `TSet::Add`: appends the element when missing. -/
def setAdd {α : Type} [DecidableEq α] (s : List α) (a : α) : List α :=
  if a ∈ s then s else s ++ [a]

/-- `TMap<.., TSet<..>>::FindOrAdd(key).Add(elem)`. -/
def multiMapAdd {α β : Type} [DecidableEq α] [DecidableEq β]
    (m : List (α × List β)) (key : α) (b : β) : List (α × List β) :=
  match mapFind? m key with
  | some s => mapAdd m key (setAdd s b)
  | none => m ++ [(key, [b])]

/-! ## Transforms over ℤ -/

/-- 3-component vector (`FVector`). -/
structure Vec3 where
  x : ℤ
  y : ℤ
  z : ℤ
deriving DecidableEq, Repr

/-- Quaternion (`FQuat`). -/
structure Quat where
  x : ℤ
  y : ℤ
  z : ℤ
  w : ℤ
deriving DecidableEq, Repr

/-- Quaternion product (`FQuat::operator*`). -/
def quatMul (a b : Quat) : Quat :=
  { x := a.w * b.x + a.x * b.w + a.y * b.z - a.z * b.y
    y := a.w * b.y - a.x * b.z + a.y * b.w + a.z * b.x
    z := a.w * b.z + a.x * b.y - a.y * b.x + a.z * b.w
    w := a.w * b.w - a.x * b.x - a.y * b.y - a.z * b.z }

/-- Quaternion conjugate (inverse of a unit quaternion). -/
def quatConj (a : Quat) : Quat := ⟨-a.x, -a.y, -a.z, a.w⟩

/-- `FQuat::RotateVector`: conjugation `q * v * q⁻¹` (unit quaternion). -/
def quatRotate (q : Quat) (v : Vec3) : Vec3 :=
  let r := quatMul (quatMul q ⟨v.x, v.y, v.z, 0⟩) (quatConj q)
  ⟨r.x, r.y, r.z⟩

/-- Rigid transform (`FTransform`): rotation, translation, 3D scale. -/
structure Transform where
  rotation : Quat
  location : Vec3
  scale3D : Vec3
deriving DecidableEq, Repr

/-- `FTransform::TransformPosition`: `Rotate(Scale3D * V) + Translation`. -/
def transformPosition (t : Transform) (p : Vec3) : Vec3 :=
  let s : Vec3 := ⟨t.scale3D.x * p.x, t.scale3D.y * p.y, t.scale3D.z * p.z⟩
  let r := quatRotate t.rotation s
  ⟨r.x + t.location.x, r.y + t.location.y, r.z + t.location.z⟩

/-- `FTransform::TransformRotation`: `Rotation * Q`. -/
def transformRotation (t : Transform) (q : Quat) : Quat :=
  quatMul t.rotation q

/-! ## Skeleton data model -/

/-- `FMeshBoneInfo`: bone name and parent index (`none` = `INDEX_NONE`). -/
structure MeshBoneInfo where
  name : String
  parentIndex : Option Nat
deriving DecidableEq, Repr

/-- `USkeletalMeshSocket`: the fields copied by `AddSockets` (cpp 1896-1901). -/
structure Socket where
  socketName : String
  boneName : String
  relativeLocation : Vec3
  relativeRotation : Vec3
  relativeScale : Vec3
  bForceAlwaysAnimated : Bool
deriving DecidableEq, Repr

/-- `USkeleton` as consumed by `MergeSkeletons`: raw reference-skeleton bone
info and poses, plus the socket list (virtual bones, curves, blend profiles
and slot groups are not modelled; no claim concerns them). -/
structure Skeleton where
  boneInfo : List MeshBoneInfo
  bonePose : List Transform
  sockets : List Socket
deriving DecidableEq, Repr

/-- `FReferenceSkeleton::FindBoneIndex`: first index with the given name,
`none` for `INDEX_NONE`. -/
def findBoneIndex (bones : List MeshBoneInfo) (n : String) : Option Nat :=
  bones.findIdx? (fun b => b.name = n)

/-- `USCS_Node` restricted to what the merge reads: the skeletal mesh
component template's skeleton asset (cpp 877), the mesh's own reference
skeleton (cpp 957-958, 971), the `AttachToName` socket (cpp 881, `"None"`
when unset), the component's relative transform (cpp 969), and the node's
child list as indices into the surrounding node array (cpp 888-890 compares
component-template identity, modelled by node index). -/
structure SCSNode where
  skeleton : Skeleton
  meshBoneInfo : List MeshBoneInfo
  meshBonePose : List Transform
  attachToName : String
  relativeTransform : Transform
  childNodes : List Nat
deriving DecidableEq, Repr

/-! ## FMergedBoneHierarchy (cpp 49-115) -/

/-- One entry emitted into the `FReferenceSkeletonModifier`:
`FMeshBoneInfo` (name, parent index) plus reference pose. -/
structure EmittedBone where
  name : String
  parentIndex : Option Nat
  pose : Transform
deriving DecidableEq, Repr

/-- `UE::SkeletonMerging::FMergedBoneHierarchy`'s three maps (cpp 108-114). -/
structure FMergedBoneHierarchy where
  boneNamePose : List (String × Transform)
  pathToBoneNames : List (String × HashVal)
  pathHashToBoneNames : List (HashVal × List String)
deriving DecidableEq, Repr

def FMergedBoneHierarchy.empty : FMergedBoneHierarchy := ⟨[], [], []⟩

/-- `FMergedBoneHierarchy::AddBone` (cpp 58-69): store the pose under the
bone name, add the bone to its parent path's child set, and store
`HashCombine(PathHash, GetTypeHash(BoneName))` as the bone's own path. -/
def FMergedBoneHierarchy.AddBone (h : FMergedBoneHierarchy) (boneName : String)
    (referencePose : Transform) (pathHash : HashVal) : FMergedBoneHierarchy :=
  { boneNamePose := mapAdd h.boneNamePose boneName referencePose
    pathHashToBoneNames := multiMapAdd h.pathHashToBoneNames pathHash boneName
    pathToBoneNames :=
      mapAdd h.pathToBoneNames boneName (.combine pathHash (.nameHash boneName)) }

/-- Work items of the emission recursion: descend below a parent bone
(`RecursiveAddBones`, cpp 94-106), or continue the
`for (ChildBoneName : *BoneNamesPtr)` loop (cpp 99-104) with the remaining
child names. -/
inductive EmitWork where
  | descend : String → EmitWork
  | children : String → List String → EmitWork

/-- The emission recursion of `FMergedBoneHierarchy` with explicit recursion
fuel (the C++ recursion is unbounded; every step consumes one fuel unit, so
any sufficiently large fuel yields the C++ behaviour, and `none` models fuel
exhaustion as well as a failed `FindChecked`). `acc` is the bone list
accumulated in the `FReferenceSkeletonModifier`; each child is emitted with
`ParentIndex = FindBoneIndex(ParentBoneName)` before it is descended into. -/
def emitGo (h : FMergedBoneHierarchy) :
    Nat → List EmittedBone → EmitWork → Option (List EmittedBone)
  | 0, _, _ => none
  | Nat.succ f, acc, .descend parentBoneName =>
    match mapFind? h.pathToBoneNames parentBoneName with
    | none => none
    | some pathHash =>
      match mapFind? h.pathHashToBoneNames pathHash with
      | none => some acc
      | some childNames => emitGo h f acc (.children parentBoneName childNames)
  | Nat.succ _, acc, .children _ [] => some acc
  | Nat.succ f, acc, .children parentBoneName (c :: rest) =>
    match mapFind? h.boneNamePose c with
    | none => none
    | some pose =>
      let acc1 := acc ++ [⟨c, List.findIdx? (fun e => e.name = parentBoneName) acc, pose⟩]
      match emitGo h f acc1 (.descend c) with
      | none => none
      | some acc2 => emitGo h f acc2 (.children parentBoneName rest)

/-- `FMergedBoneHierarchy::RecursiveAddBones` (cpp 94-106). -/
def recursiveAddBones (h : FMergedBoneHierarchy) (fuel : Nat)
    (acc : List EmittedBone) (parentBoneName : String) : Option (List EmittedBone) :=
  emitGo h fuel acc (.descend parentBoneName)

/-- `FMergedBoneHierarchy::PopulateSkeleton` (cpp 71-87). The root-uniqueness
`ensure` is commented out in the source (cpp 79): the first-inserted child of
`HashCombine(0,0)` is used as root unconditionally. A missing entry for the
root parent hash is a `FindChecked` failure (`none` = crash). -/
def FMergedBoneHierarchy.PopulateSkeleton (h : FMergedBoneHierarchy) (fuel : Nat) :
    Option (List EmittedBone) :=
  match mapFind? h.pathHashToBoneNames rootParentHash with
  | none => none
  | some childBoneNames =>
    match childBoneNames with
    | [] => none
    | rootBoneName :: _ =>
      match mapFind? h.boneNamePose rootBoneName with
      | none => none
      | some pose =>
        recursiveAddBones h fuel [⟨rootBoneName, none, pose⟩] rootBoneName

/-! ## UJrSkeletalMergingLibrary::MergeSkeletons (cpp 803-1090) -/

/-- `FSkeletonMergeParams` restricted to the modelled features: the source
skeleton list (`none` = null entry) and the `bCheckSkeletonsCompatibility` /
`bMergeSockets` flags. The virtual-bone / curve / blend-profile / slot-group
flags drive code that is not modelled (no claim concerns them). -/
structure SkeletonMergeParams where
  skeletonsToMerge : List (Option Skeleton)
  bCheckSkeletonsCompatibility : Bool
  bMergeSockets : Bool
deriving Repr

/-- `TArray::AddUnique` fold over the input list (cpp 806-810). Object
pointer identity is modelled as value equality. -/
def addUniqueList {α : Type} [DecidableEq α] (l : List α) : List α :=
  l.foldl (fun acc a => if a ∈ acc then acc else acc ++ [a]) []

/-- Ghost record of one `AddBone` call made by the merge loop: source index,
bone index, the stored (suffixed) name, and the bone's full path key
`HashCombine(BonePathHash, GetTypeHash(Bone_Name))` as stored by `AddBone`
(cpp 66-68). Not part of the C++ state; used only to state per-bone-occurrence
properties. -/
structure TraceEntry where
  si : Nat
  bi : Nat
  storedName : String
  pathKey : HashVal
deriving DecidableEq, Repr

/-- The mutable state accumulated across the source loop of `MergeSkeletons`
(cpp 831-850), plus the ghost `trace` and a ghost count of the pose-conflict
warnings logged at cpp 939. -/
structure AccumState where
  boneNamesToPathHash : List (String × HashVal)
  boneNamesToBonePose : List (String × Transform)
  hierarchy : FMergedBoneHierarchy
  hashToSockets : List (HashVal × Socket)
  bMergeSkeletonsFailed : Bool
  warnings : Nat
  trace : List TraceEntry
deriving Repr

def AccumState.initial : AccumState :=
  ⟨[], [], .empty, [], false, 0, []⟩

/-- The `for (USCS_Node* Node : SkeletalNodes)` search (cpp 875-877): first
node whose skeletal mesh component's skeleton equals the skeleton being
merged, together with its position (used for component-identity comparison in
the fallback search). -/
def findMatchingNode (nodes : List SCSNode) (skel : Skeleton) : Option (Nat × SCSNode) :=
  (nodes.findIdx? (fun n => n.skeleton = skel)).bind
    (fun i => (nodes.get? i).map (fun n => (i, n)))

/-- The fallback parent search (cpp 885-903): first node whose child list
contains this node, yielding bone 0's name of that node's mesh (crash when
the mesh has no bones). Dead in practice: the `IsNone` test it is guarded by
can never succeed after `"/1"` was appended (cpp 881-883). -/
def fallbackParentName (nodes : List SCSNode) (myIdx : Nat) : Option String :=
  match nodes.find? (fun n1 => myIdx ∈ n1.childNodes) with
  | none => none
  | some n1 =>
    match n1.meshBoneInfo with
    | [] => none
    | b :: _ => some b.name

/-- The transform adjustment for bones of secondary skeletons
(cpp 951-981): requires the de-facto `BoneNode` register to hold a node
(uninitialised read = crash = `none`); looks the `"/1"`-suffixed name up in
the node's mesh reference skeleton and, only when found, rebases the root
bone by the component's relative transform applied to the mesh's own root
bone rest pose (location/rotation; scale untouched), or copies the mesh pose
location/rotation for non-root bones with `BoneIndex > 0`. -/
def computeMergedTransform (boneNode : Option SCSNode) (bone : MeshBoneInfo)
    (bi : Nat) (boneName : String) (pose : Transform) : Option Transform :=
  match boneNode with
  | none => none
  | some node =>
    match findBoneIndex node.meshBoneInfo boneName with
    | none => some pose
    | some i =>
      match node.meshBonePose.get? i with
      | none => some pose
      | some boneRelativeTransform =>
        if bone.parentIndex = none then
          match node.meshBonePose.get? 0 with
          | none => none
          | some boneWorldTransform =>
            some { pose with
                   location := transformPosition node.relativeTransform boneWorldTransform.location
                   rotation := transformRotation node.relativeTransform boneWorldTransform.rotation }
        else if bi > 0 then
          some { pose with
                 location := boneRelativeTransform.location
                 rotation := boneRelativeTransform.rotation }
        else some pose

/-- The part of a bone-loop iteration following the attachment re-homing
(cpp 911-984): path-hash lookup and combination, the compatibility check, the
transform adjustment, and the `AddBone` call. Shared by every case of
`boneStep`. -/
def boneStepTail (params : SkeletonMergeParams) (si : Nat) (bi : Nat)
    (conflictive : Bool) (boneNode' : Option SCSNode) (st : AccumState)
    (bone : MeshBoneInfo) (bonePose : Transform)
    (parentName : String) (parentHash : HashVal) :
    Option (Bool × Option SCSNode × AccumState × Bool) :=
  let boneName := pathAppend bone.name "1"
  let parentPathHash := (mapFind? st.boneNamesToPathHash parentName).getD .zero
  let bonePathHash := HashVal.combine parentPathHash parentHash
  let compat : Option (Bool × Bool × Nat) :=
    if params.bCheckSkeletonsCompatibility then
      match mapFind? st.boneNamesToPathHash boneName with
      | some existingPathHash =>
        if existingPathHash ≠ bonePathHash then
          some (true, conflictive, st.warnings)
        else if ¬ conflictive then
          match mapFind? st.boneNamesToBonePose boneName with
          | none => none
          | some oldPose =>
            if oldPose ≠ bonePose then some (false, true, st.warnings + 1)
            else some (false, conflictive, st.warnings)
        else some (false, conflictive, st.warnings)
      | none => some (false, conflictive, st.warnings)
    else some (false, conflictive, st.warnings)
  match compat with
  | none => none
  | some (mismatch, conflictive', warnings') =>
    if mismatch then
      some (conflictive', boneNode', { st with bMergeSkeletonsFailed := true }, true)
    else
      let st1 := { st with
        boneNamesToBonePose :=
          if params.bCheckSkeletonsCompatibility then
            mapAdd st.boneNamesToBonePose boneName bonePose
          else st.boneNamesToBonePose
        boneNamesToPathHash := mapAdd st.boneNamesToPathHash boneName bonePathHash
        warnings := warnings' }
      let transform : Option Transform :=
        if si > 0 then computeMergedTransform boneNode' bone bi boneName bonePose
        else some bonePose
      match transform with
      | none => none
      | some tr =>
        let st2 := { st1 with
          hierarchy := st1.hierarchy.AddBone boneName tr bonePathHash
          trace := st1.trace ++
            [⟨si, bi, boneName, .combine bonePathHash (.nameHash boneName)⟩] }
        some (conflictive', boneNode', st2, false)

/-- The body of one iteration of the bone loop (cpp 862-984) for
`Bones[BoneIndex]`: reference-pose read, parent-name and parent-hash
computation, attachment re-homing for secondary roots, then `boneStepTail`.
Returns the updated per-source flag `bConflictivePoseFound`, the de-facto
`BoneNode` register, the updated accumulation state, and whether the loop
`break`s (compatibility mismatch, cpp 929-934). `none` = crash. -/
def boneStep (params : SkeletonMergeParams) (nodes : List SCSNode) (si : Nat)
    (skel : Skeleton) (bi : Nat) (conflictive : Bool) (boneNode : Option SCSNode)
    (st : AccumState) (bone : MeshBoneInfo) :
    Option (Bool × Option SCSNode × AccumState × Bool) :=
  match skel.bonePose.get? bi with
  | none => none
  | some bonePose =>
    let parentNameRaw : Option String :=
      match bone.parentIndex with
      | some pi => (skel.boneInfo.get? pi).map (fun b => b.name)
      | none => some "None"
    match parentNameRaw with
    | none => none
    | some parentName0 =>
      let parentName1 := pathAppend parentName0 "1"
      let parentHash1 : HashVal :=
        match bone.parentIndex with
        | some _ => .nameHash parentName1
        | none => .zero
      let rehomed : Option (String × HashVal × Option SCSNode) :=
        if si > 0 ∧ bone.parentIndex = none then
          match findMatchingNode nodes skel with
          | some (idx, node) =>
            let pn0 := pathAppend node.attachToName "1"
            if isNoneName pn0 then
              match fallbackParentName nodes idx with
              | none => none
              | some pn => some (pn, .nameHash pn, some node)
            else some (pn0, .nameHash pn0, some node)
          | none => some (parentName1, parentHash1, boneNode)
        else some (parentName1, parentHash1, boneNode)
      match rehomed with
      | none => none
      | some (parentName, parentHash, boneNode') =>
        boneStepTail params si bi conflictive boneNode' st bone bonePose
          parentName parentHash

/-- One source skeleton's bone loop (cpp 862-984): iterate `boneStep` over
the bone array, stopping early on a compatibility `break`. `rem` is
structural recursion fuel, instantiated with the bone count so that the loop
scans every bone. -/
def processBonesFrom (params : SkeletonMergeParams) (nodes : List SCSNode)
    (si : Nat) (skel : Skeleton) (rem : Nat) (bi : Nat) (conflictive : Bool)
    (boneNode : Option SCSNode) (st : AccumState) : Option AccumState :=
  match rem with
  | 0 => some st
  | Nat.succ rem =>
    if hbi : bi < skel.boneInfo.length then
      match boneStep params nodes si skel bi conflictive boneNode st
          (skel.boneInfo.get ⟨bi, hbi⟩) with
      | none => none
      | some (conflictive', boneNode', st2, brk) =>
        if brk then some st2
        else processBonesFrom params nodes si skel rem (bi + 1) conflictive' boneNode' st2
    else some st

/-- `HashCombine(GetTypeHash(SocketName), GetTypeHash(BoneName))` (cpp 995). -/
def socketKey (s : Socket) : HashVal :=
  .combine (.nameHash s.socketName) (.nameHash s.boneName)

/-- The socket fold of one source (cpp 993-997): `TMap::Add` replaces the
value of an existing key. -/
def collectSockets (m : List (HashVal × Socket)) (sockets : List Socket) :
    List (HashVal × Socket) :=
  sockets.foldl (fun acc s => mapAdd acc (socketKey s) s) m

/-- One iteration of the source loop (cpp 852-1039): run the bone loop, then
— unless `bCheckSkeletonsCompatibility` is set and the (global, never reset)
failure flag is up (cpp 986-989) — fold this source's sockets when socket
merging is enabled. -/
def processSource (params : SkeletonMergeParams) (nodes : List SCSNode)
    (si : Nat) (skel : Skeleton) (st : AccumState) : Option AccumState :=
  match processBonesFrom params nodes si skel skel.boneInfo.length 0 false none st with
  | none => none
  | some st1 =>
    if params.bCheckSkeletonsCompatibility ∧ st1.bMergeSkeletonsFailed then some st1
    else if params.bMergeSockets then
      some { st1 with hashToSockets := collectSockets st1.hashToSockets skel.sockets }
    else some st1

/-- The full source loop over the deduplicated skeleton list. -/
def accumulateSkeletons (params : SkeletonMergeParams) (nodes : List SCSNode)
    (skels : List Skeleton) : Option AccumState :=
  (skels.enum.foldl
    (fun acc (p : Nat × Skeleton) =>
      match acc with
      | none => none
      | some st => processSource params nodes p.1 p.2 st)
    (some AccumState.initial))

/-- The null dereferences inside the `Algo::Accumulate` bone-count lambda
(cpp 820-823): every deduplicated entry is dereferenced; a null entry is a
crash. -/
def extractAll : List (Option Skeleton) → Option (List Skeleton)
  | [] => some []
  | none :: _ => none
  | some s :: rest => (extractAll rest).map (s :: ·)

/-- `UJrSkeletalMergingLibrary::AddSockets` (cpp 1886-1904): each merged
socket is copied field by field into a fresh socket object on the generated
skeleton. -/
def addSocketsCopy (s : Socket) : Socket :=
  { socketName := s.socketName
    boneName := s.boneName
    relativeLocation := s.relativeLocation
    relativeRotation := s.relativeRotation
    relativeScale := s.relativeScale
    bForceAlwaysAnimated := s.bForceAlwaysAnimated }

/-- Result of `MergeSkeletons`: `crash` models undefined behaviour or a
failed engine `check` (no graceful return), `noResult` the `return nullptr`
paths, `merged` a generated skeleton (its emitted bone list and sockets). -/
inductive MergeOutcome where
  | crash : MergeOutcome
  | noResult : MergeOutcome
  | merged : List EmittedBone → List Socket → MergeOutcome
deriving DecidableEq, Repr

/-- `UJrSkeletalMergingLibrary::MergeSkeletons` (cpp 803-1090): deduplicate
the input list (`AddUnique`), return `nullptr` when it is empty, count bones
(dereferencing every entry), return `nullptr` when zero, run the source loop,
return `nullptr` when the failure flag is set (cpp 1041-1045), then populate
the generated skeleton and copy the merged sockets. `fuel` bounds the
`RecursiveAddBones` recursion depth. -/
def MergeSkeletons (params : SkeletonMergeParams) (nodes : List SCSNode)
    (fuel : Nat) : MergeOutcome :=
  let toMerge := addUniqueList params.skeletonsToMerge
  if toMerge.length = 0 then .noResult
  else
    match extractAll toMerge with
    | none => .crash
    | some skels =>
      let totalPossibleBones := (skels.map (·.boneInfo.length)).sum
      if totalPossibleBones = 0 then .noResult
      else
        match accumulateSkeletons params nodes skels with
        | none => .crash
        | some st =>
          if st.bMergeSkeletonsFailed then .noResult
          else
            match st.hierarchy.PopulateSkeleton fuel with
            | none => .crash
            | some bones =>
              let sockets :=
                if params.bMergeSockets then
                  st.hashToSockets.map (fun p => addSocketsCopy p.2)
                else []
              .merged bones sockets

/-! ## Chain encodings of path hashes -/

/-- Chain of strict-ancestor names (original, unsuffixed) of bone `i`,
root first, computed with explicit fuel (`i + 1` suffices for well-formed
skeletons whose parent indices decrease). -/
def parentChainGo (bones : List MeshBoneInfo) : Nat → Nat → List String
  | 0, _ => []
  | Nat.succ f, i =>
    match bones.get? i with
    | none => []
    | some b =>
      match b.parentIndex with
      | none => []
      | some pi =>
        parentChainGo bones f pi ++ [((bones.get? pi).map (·.name)).getD ""]

/-- Strict-ancestor name chain of bone `i` (root's name first, parent's name
last; empty for a root). -/
def parentChain (bones : List MeshBoneInfo) (i : Nat) : List String :=
  parentChainGo bones (i + 1) i

/-- Full name chain of bone `i`: ancestors then the bone's own name. -/
def nameChain (bones : List MeshBoneInfo) (i : Nat) : List String :=
  parentChain bones i ++ [((bones.get? i).map (·.name)).getD ""]

/-- Appending the `"1"` path segment to every name of a chain, as the merge
loop does before hashing. -/
def suffixedChain (c : List String) : List String := c.map (pathAppend · "1")

/-- Folding a name chain into a path hash the way the merge loop does:
`HashCombine(acc, GetTypeHash(name))` left to right. -/
def chainEncode (base : HashVal) (c : List String) : HashVal :=
  c.foldl (fun h n => .combine h (.nameHash n)) base

/-- Partial inverse of `chainEncode rootParentHash`: recovers the name chain
from a path-hash term. -/
def chainDecode : HashVal → Option (List String)
  | .combine .zero .zero => some []
  | .combine a (.nameHash n) => (chainDecode a).map (fun c => c ++ [n])
  | _ => none

theorem chainEncode_append (base : HashVal) (c d : List String) :
    chainEncode base (c ++ d) = chainEncode (chainEncode base c) d := by
  simp [chainEncode, List.foldl_append]

theorem chainEncode_concat (base : HashVal) (c : List String) (n : String) :
    chainEncode base (c ++ [n]) = .combine (chainEncode base c) (.nameHash n) := by
  simp [chainEncode_append, chainEncode]

theorem chainDecode_encode (c : List String) :
    chainDecode (chainEncode rootParentHash c) = some c := by
  induction c using List.reverseRecOn with
  | nil => simp [chainEncode, rootParentHash, chainDecode]
  | append_singleton c n ih => rw [chainEncode_concat]; simp [chainDecode, ih]

/-- `chainEncode rootParentHash` is injective: equal path-hash terms come
from equal suffixed name chains. -/
theorem chainEncode_injective {c d : List String}
    (h : chainEncode rootParentHash c = chainEncode rootParentHash d) : c = d := by
  have hc := chainDecode_encode c
  have hd := chainDecode_encode d
  rw [h] at hc
  rw [hc] at hd
  exact Option.some.inj hd

/-! ## Lemmas on the map/set model -/

theorem mapFind?_mapAdd {α β : Type} [DecidableEq α] (m : List (α × β)) (k : α) (v : β)
    (k' : α) :
    mapFind? (mapAdd m k v) k' = if k = k' then some v else mapFind? m k' := by
  induction m with
  | nil => by_cases h : k = k' <;> simp [mapAdd, mapFind?, h]
  | cons p rest ih =>
    obtain ⟨pk, pv⟩ := p
    by_cases h1 : pk = k
    · subst h1
      by_cases h2 : pk = k' <;> simp [mapAdd, mapFind?, h2]
    · by_cases h2 : pk = k'
      · subst h2
        simp [mapAdd, mapFind?, h1]
        rw [if_neg (fun hh => h1 hh.symm)]
      · simp [mapAdd, mapFind?, h1, h2, ih]

theorem mapFind?_append {α β : Type} [DecidableEq α] (m1 m2 : List (α × β)) (k : α) :
    mapFind? (m1 ++ m2) k =
      match mapFind? m1 k with
      | some v => some v
      | none => mapFind? m2 k := by
  induction m1 with
  | nil => simp [mapFind?]
  | cons p rest ih =>
    by_cases h : p.1 = k <;> simp [mapFind?, h, ih]

/-- Keys present in the map. -/
theorem mapFind?_multiMapAdd {α β : Type} [DecidableEq α] [DecidableEq β]
    (m : List (α × List β)) (k : α) (b : β) (k' : α) :
    mapFind? (multiMapAdd m k b) k' =
      if k = k' then
        match mapFind? m k with
        | some s => some (setAdd s b)
        | none => some [b]
      else mapFind? m k' := by
  unfold multiMapAdd
  by_cases h : k = k'
  · subst h
    match hm : mapFind? m k with
    | some s => simp [hm, mapFind?_mapAdd]
    | none => simp [hm, mapFind?_append, mapFind?]
  · match hm : mapFind? m k with
    | some s => simp [hm, mapFind?_mapAdd, h]
    | none =>
      simp only [hm, if_neg h, mapFind?_append]
      match hm' : mapFind? m k' with
      | some s => simp [hm']
      | none => simp [hm', mapFind?, h]

/-! ## Lemmas on pathAppend -/

theorem length_pos_of_not_isEmpty {a : String} (h : a.isEmpty = false) :
    0 < a.length := by
  have hne : a ≠ "" := fun he => absurd (he ▸ h) (by decide)
  have hd : a.data ≠ [] := fun hd => hne (String.ext hd)
  exact List.length_pos.mpr hd

theorem pathAppend_one_of_not_slash {a : String} (ha : a.isEmpty = false)
    (hs : endsWithSlash a = false) : pathAppend a "1" = a ++ "/1" := by
  unfold pathAppend
  rw [ha, hs]
  simp only [Bool.false_eq_true, if_false]
  rw [String.append_assoc]
  rfl

theorem pathAppend_one_length (a : String) :
    (pathAppend a "1").length = if a.isEmpty then 1 else
      if endsWithSlash a then a.length + 1 else a.length + 2 := by
  unfold pathAppend
  by_cases h1 : a.isEmpty
  · simp [h1]
    decide
  · by_cases h2 : endsWithSlash a
    · simp [h1, h2, String.length_append]
      decide
    · simp [h1, h2, String.length_append]
      have hs : ("/" : String).length = 1 := rfl
      have ho : ("1" : String).length = 1 := rfl
      omega

theorem pathAppend_one_ne_self (a : String) : pathAppend a "1" ≠ a := by
  intro h
  have hlen := congrArg String.length h
  rw [pathAppend_one_length] at hlen
  by_cases h1 : a.isEmpty
  · rw [if_pos h1] at hlen
    rw [String.isEmpty_iff] at h1
    rw [h1] at hlen
    simp [String.length] at hlen
  · rw [if_neg h1] at hlen
    by_cases h2 : endsWithSlash a
    · simp [h2] at hlen
    · simp [h2] at hlen

/-- On names that do not end in a path separator, appending the `"1"`
segment is injective. -/
theorem pathAppend_one_injective {a b : String}
    (ha : endsWithSlash a = false) (hb : endsWithSlash b = false)
    (h : pathAppend a "1" = pathAppend b "1") : a = b := by
  by_cases h1 : a.isEmpty
  · by_cases h2 : b.isEmpty
    · rw [String.isEmpty_iff] at h1 h2
      rw [h1, h2]
    · exfalso
      have hb2 : b.isEmpty = false := by simp at h2 ⊢; exact h2
      have hbp := length_pos_of_not_isEmpty hb2
      have hlen := congrArg String.length h
      rw [pathAppend_one_length, pathAppend_one_length, if_pos h1, if_neg h2,
        if_neg (by simp [hb])] at hlen
      omega
  · by_cases h2 : b.isEmpty
    · exfalso
      have ha2 : a.isEmpty = false := by simp at h1 ⊢; exact h1
      have hap := length_pos_of_not_isEmpty ha2
      have hlen := congrArg String.length h
      rw [pathAppend_one_length, pathAppend_one_length, if_neg h1, if_pos h2,
        if_neg (by simp [ha])] at hlen
      omega
    · rw [pathAppend_one_of_not_slash (by simp at h1 ⊢; exact h1) ha,
          pathAppend_one_of_not_slash (by simp at h2 ⊢; exact h2) hb] at h
      have hdata := congrArg String.data h
      simp only [String.data_append] at hdata
      have hlens := congrArg List.length hdata
      simp only [List.length_append] at hlens
      have := List.append_inj_left hdata (by omega)
      exact String.ext this

/-! ## Emission invariants (RecursiveAddBones / PopulateSkeleton) -/

/-- Every emitted bone's recorded parent index points strictly before the
bone's own position in the emitted list. -/
def ParentsBeforeChildren (l : List EmittedBone) : Prop :=
  ∀ k (hk : k < l.length) pi, (l.get ⟨k, hk⟩).parentIndex = some pi → pi < k

theorem parentsBeforeChildren_append_singleton {l : List EmittedBone} {e : EmittedBone}
    (hl : ParentsBeforeChildren l)
    (he : ∀ pi, e.parentIndex = some pi → pi < l.length) :
    ParentsBeforeChildren (l ++ [e]) := by
  intro k hk pi hpi
  rcases Nat.lt_or_ge k l.length with h | h
  · refine hl k h pi ?_
    rw [← hpi]
    simp only [List.get_eq_getElem]
    rw [List.getElem_append_left h]
  · have hk' : k < l.length + 1 := by simpa using hk
    have hkeq : k = l.length := by omega
    subst hkeq
    have : (l ++ [e]).get ⟨l.length, hk⟩ = e := by
      simp only [List.get_eq_getElem]
      rw [List.getElem_append_right (by omega)]
      simp
    rw [this] at hpi
    exact he pi hpi

/-- Combined invariant of the emission recursion: the result extends the
accumulator, and all recorded parent indices point strictly earlier. -/
theorem emitGo_invariant (fuel : Nat) :
    ∀ h acc w out, emitGo h fuel acc w = some out →
      (∃ ext, out = acc ++ ext) ∧
        (ParentsBeforeChildren acc → ParentsBeforeChildren out) := by
  induction fuel with
  | zero =>
    intro h acc w out hout
    simp [emitGo] at hout
  | succ f ih =>
    intro h acc w out hout
    match w with
    | .descend p =>
      unfold emitGo at hout
      split at hout
      · exact absurd hout (by simp)
      · split at hout
        · simp only [Option.some.injEq] at hout
          subst hout
          exact ⟨⟨[], by simp⟩, id⟩
        · exact ih h acc _ out hout
    | .children p [] =>
      unfold emitGo at hout
      simp only [Option.some.injEq] at hout
      subst hout
      exact ⟨⟨[], by simp⟩, id⟩
    | .children p (c :: rest) =>
      unfold emitGo at hout
      split at hout
      · exact absurd hout (by simp)
      · rename_i pose hpose
        simp only at hout
        split at hout
        · exact absurd hout (by simp)
        · rename_i acc2 hr
          obtain ⟨⟨ext1, he1⟩, hpbc1⟩ := ih h _ _ acc2 hr
          obtain ⟨⟨ext2, he2⟩, hpbc2⟩ := ih h acc2 _ out hout
          constructor
          · refine ⟨[⟨c, List.findIdx? (fun e => e.name = p) acc, pose⟩] ++ ext1 ++ ext2, ?_⟩
            rw [he2, he1]
            simp
          · intro hacc
            refine hpbc2 (hpbc1 ?_)
            refine parentsBeforeChildren_append_singleton hacc ?_
            intro pi hpi
            simp only at hpi
            rw [List.findIdx?_eq_some_iff_findIdx_eq] at hpi
            exact hpi.1

/-- The list emitted by `PopulateSkeleton` starts with the first-inserted
root candidate and has all parent indices pointing strictly earlier. -/
theorem populateSkeleton_head (h : FMergedBoneHierarchy) (fuel : Nat)
    (l : List EmittedBone) (hp : h.PopulateSkeleton fuel = some l) :
    ∃ rootName rest pose,
      mapFind? h.pathHashToBoneNames rootParentHash = some (rootName :: rest) ∧
      mapFind? h.boneNamePose rootName = some pose ∧
      l.head? = some ⟨rootName, none, pose⟩ ∧
      ParentsBeforeChildren l := by
  unfold FMergedBoneHierarchy.PopulateSkeleton at hp
  split at hp
  · exact absurd hp (by simp)
  · rename_i childBoneNames hroot
    split at hp
    · exact absurd hp (by simp)
    · rename_i rootName rest
      split at hp
      · exact absurd hp (by simp)
      · rename_i pose hpose
        obtain ⟨⟨ext, hext⟩, hpbc⟩ := emitGo_invariant fuel h _ _ _ hp
        refine ⟨rootName, rest, pose, hroot, hpose, ?_, ?_⟩
        · rw [hext]
          simp
        · refine hpbc ?_
          intro k hk pi hpi
          simp at hk
          subst hk
          simp at hpi

/-! ## Well-formed source skeletons and their name chains -/

/-- Well-formedness of a source skeleton as exported by the engine: poses
parallel to the bone list, parents strictly precede children, the only root
is bone 0, bone names are pairwise distinct and do not end in a path
separator. -/
structure WellFormedSkeleton (S : Skeleton) : Prop where
  poseLen : S.bonePose.length = S.boneInfo.length
  parentLt : ∀ i (h : i < S.boneInfo.length) pi,
    (S.boneInfo.get ⟨i, h⟩).parentIndex = some pi → pi < i
  rootAtZero : ∀ i (h : i < S.boneInfo.length),
    (S.boneInfo.get ⟨i, h⟩).parentIndex = none → i = 0
  namesNodup : (S.boneInfo.map (fun b => b.name)).Nodup
  noSlash : ∀ b ∈ S.boneInfo, endsWithSlash b.name = false

/-- The bone's name (empty for an out-of-range index). -/
def nameOf (S : Skeleton) (j : Nat) : String :=
  ((S.boneInfo.get? j).map (fun b => b.name)).getD ""

/-- The `"/1"`-suffixed stored name of bone `j`. -/
def suffName (S : Skeleton) (j : Nat) : String := pathAppend (nameOf S j) "1"

/-- The bone's reference pose (identity for an out-of-range index). -/
def poseOf (S : Skeleton) (j : Nat) : Transform :=
  (S.bonePose.get? j).getD ⟨⟨0, 0, 0, 1⟩, ⟨0, 0, 0⟩, ⟨1, 1, 1⟩⟩

/-- Index of the bone whose suffixed name is `nm`. -/
def idxOfSuffixed? (S : Skeleton) (nm : String) : Option Nat :=
  S.boneInfo.findIdx? (fun b => pathAppend b.name "1" = nm)

theorem parentChainGo_succ (bones : List MeshBoneInfo) (f i : Nat) :
    parentChainGo bones (f + 1) i =
      match bones.get? i with
      | none => []
      | some b =>
        match b.parentIndex with
        | none => []
        | some pi =>
          parentChainGo bones f pi ++ [((bones.get? pi).map (fun b => b.name)).getD ""] := rfl

theorem parentChainGo_mono (bones : List MeshBoneInfo)
    (hwf : ∀ i (h : i < bones.length) pi,
      (bones.get ⟨i, h⟩).parentIndex = some pi → pi < i) :
    ∀ i, ∀ f g, i < f → i < g → parentChainGo bones f i = parentChainGo bones g i := by
  intro i
  induction i using Nat.strong_induction_on with
  | _ i ih =>
    intro f g hf hg
    match f, g with
    | Nat.succ f, Nat.succ g =>
      cases hb : bones.get? i with
      | none => simp only [parentChainGo_succ, hb]
      | some b =>
        cases hp : b.parentIndex with
        | none => simp only [parentChainGo_succ, hb, hp]
        | some pi =>
          obtain ⟨hlen, hbi⟩ := List.get?_eq_some.mp hb
          have hpi : pi < i := hwf i hlen pi (by rw [hbi]; exact hp)
          simp only [parentChainGo_succ, hb, hp]
          rw [ih pi hpi f g (by omega) (by omega)]

/-- Chain equation: a child's strict chain extends its parent's full chain. -/
theorem parentChain_eq_step (S : Skeleton) (hwf : WellFormedSkeleton S)
    (i : Nat) (hi : i < S.boneInfo.length) (pi : Nat)
    (hpi : (S.boneInfo.get ⟨i, hi⟩).parentIndex = some pi) :
    parentChain S.boneInfo i = parentChain S.boneInfo pi ++ [nameOf S pi] := by
  have hplt : pi < i := hwf.parentLt i hi pi hpi
  unfold parentChain
  rw [parentChainGo_succ]
  rw [List.get?_eq_get hi]
  simp only [hpi]
  rw [parentChainGo_mono S.boneInfo hwf.parentLt pi i (pi + 1) (by omega) (by omega)]
  rfl

/-- A root bone's strict chain is empty. -/
theorem parentChain_root (S : Skeleton)
    (i : Nat) (hi : i < S.boneInfo.length)
    (hpi : (S.boneInfo.get ⟨i, hi⟩).parentIndex = none) :
    parentChain S.boneInfo i = [] := by
  unfold parentChain
  rw [parentChainGo_succ, List.get?_eq_get hi]
  simp only [hpi]

/-- Every element of a bone's strict chain is the name of some bone. -/
theorem parentChain_mem (S : Skeleton) (hwf : WellFormedSkeleton S) :
    ∀ i, i < S.boneInfo.length →
      ∀ nm ∈ parentChain S.boneInfo i, ∃ b ∈ S.boneInfo, b.name = nm := by
  intro i
  induction i using Nat.strong_induction_on with
  | _ i ih =>
    intro hi nm hnm
    cases hpi : (S.boneInfo.get ⟨i, hi⟩).parentIndex with
    | none => rw [parentChain_root S i hi hpi] at hnm; simp at hnm
    | some pi =>
      have hplt : pi < i := hwf.parentLt i hi pi hpi
      rw [parentChain_eq_step S hwf i hi pi hpi] at hnm
      rcases List.mem_append.mp hnm with h1 | h1
      · exact ih pi hplt (by omega) nm h1
      · have : nm = nameOf S pi := by simpa using h1
        subst this
        refine ⟨S.boneInfo.get ⟨pi, by omega⟩, List.get_mem _ _ _, ?_⟩
        unfold nameOf
        rw [List.get?_eq_get (by omega)]
        rfl

/-- `suffixedChain` is injective on chains of non-separator-terminated
names. -/
theorem suffixedChain_inj (c d : List String)
    (hc : ∀ n ∈ c, endsWithSlash n = false) (hd : ∀ n ∈ d, endsWithSlash n = false)
    (h : suffixedChain c = suffixedChain d) : c = d := by
  induction c generalizing d with
  | nil => cases d with
    | nil => rfl
    | cons x xs => simp [suffixedChain] at h
  | cons x xs ih =>
    cases d with
    | nil => simp [suffixedChain] at h
    | cons y ys =>
      simp only [suffixedChain, List.map_cons, List.cons.injEq] at h
      have h1 : x = y :=
        pathAppend_one_injective (hc x (by simp)) (hd y (by simp)) h.1
      have h2 : xs = ys := ih ys (fun n hn => hc n (by simp [hn]))
        (fun n hn => hd n (by simp [hn])) h.2
      rw [h1, h2]

/-- Under well-formedness, `idxOfSuffixed?` recovers each bone's index from
its stored suffixed name. -/
theorem idxOfSuffixed?_suffName (S : Skeleton) (hwf : WellFormedSkeleton S)
    (j : Nat) (hj : j < S.boneInfo.length) :
    idxOfSuffixed? S (suffName S j) = some j := by
  unfold idxOfSuffixed?
  rw [List.findIdx?_eq_some_iff_findIdx_eq]
  refine ⟨hj, ?_⟩
  rw [List.findIdx_eq hj]
  have hnamej : nameOf S j = (S.boneInfo.get ⟨j, hj⟩).name := by
    unfold nameOf
    rw [List.get?_eq_get hj]
    rfl
  constructor
  · simp [suffName, hnamej]
  · intro k hk
    have hkj : k < S.boneInfo.length := by omega
    simp only [decide_eq_false_iff_not]
    intro he
    have hkf : endsWithSlash (S.boneInfo.get ⟨k, hkj⟩).name = false :=
      hwf.noSlash _ (List.get_mem _ _ _)
    have hjf : endsWithSlash (S.boneInfo.get ⟨j, hj⟩).name = false :=
      hwf.noSlash _ (List.get_mem _ _ _)
    have heq : (S.boneInfo.get ⟨k, hkj⟩).name = (S.boneInfo.get ⟨j, hj⟩).name := by
      apply pathAppend_one_injective hkf hjf
      rw [← hnamej]
      have : S.boneInfo[k] = S.boneInfo.get ⟨k, hkj⟩ := rfl
      rw [this] at he
      exact he
    have hmap : (S.boneInfo.map (fun b => b.name)).get
        ⟨k, by simpa using hkj⟩ =
        (S.boneInfo.map (fun b => b.name)).get ⟨j, by simpa using hj⟩ := by
      rw [List.get_map, List.get_map]
      exact heq
    have := (hwf.namesNodup.get_inj_iff).mp hmap
    have hkjeq : k = j := by simpa using this
    omega

/-! ## Per-source characterization of the accumulation loop -/

/-- The strict path key recorded in `BoneNamesToPathHash` for bone `j` of a
source whose root-level key is `R`: the fold of `HashCombine` over the
suffixed strict-ancestor chain (cpp 916-919 across the loop). -/
def strictKeySpec (S : Skeleton) (R : HashVal) (j : Nat) : HashVal :=
  chainEncode R (suffixedChain (parentChain S.boneInfo j))

/-- The full path key stored by `AddBone` for bone `j`
(`HashCombine(BonePathHash, GetTypeHash(Bone_Name))`, cpp 66-68). -/
def fullKeySpec (S : Skeleton) (R : HashVal) (j : Nat) : HashVal :=
  HashVal.combine (strictKeySpec S R j) (.nameHash (suffName S j))

theorem fullKeySpec_eq_encode (S : Skeleton) (R : HashVal) (j : Nat) :
    fullKeySpec S R j = chainEncode R (suffixedChain (nameChain S.boneInfo j)) := by
  unfold fullKeySpec strictKeySpec nameChain suffixedChain
  rw [List.map_append]
  rw [chainEncode_append]
  rfl

/-- The transform recorded for bone `j` of a secondary source attached
through `node` (cpp 951-981), as a total function: unchanged unless the
suffixed name occurs in the node's mesh reference skeleton; the root is
rebased by the component's relative transform applied to the mesh's own
root-bone rest pose. -/
def graftTransformSpec (node : SCSNode) (bone : MeshBoneInfo) (bi : Nat)
    (nm : String) (pose : Transform) : Transform :=
  match findBoneIndex node.meshBoneInfo nm with
  | none => pose
  | some i =>
    match node.meshBonePose.get? i with
    | none => pose
    | some boneRel =>
      if bone.parentIndex = none then
        match node.meshBonePose.get? 0 with
        | none => pose
        | some w =>
          { pose with
            location := transformPosition node.relativeTransform w.location
            rotation := transformRotation node.relativeTransform w.rotation }
      else if bi > 0 then
        { pose with location := boneRel.location, rotation := boneRel.rotation }
      else pose

theorem computeMergedTransform_some (node : SCSNode) (bone : MeshBoneInfo)
    (bi : Nat) (nm : String) (pose : Transform) :
    computeMergedTransform (some node) bone bi nm pose =
      some (graftTransformSpec node bone bi nm pose) := by
  unfold computeMergedTransform graftTransformSpec
  dsimp only
  cases hf : findBoneIndex node.meshBoneInfo nm with
  | none => rfl
  | some i =>
    dsimp only
    cases hg : node.meshBonePose.get? i with
    | none => rfl
    | some rel =>
      dsimp only
      by_cases hp : bone.parentIndex = none
      · rw [if_pos hp, if_pos hp]
        cases h0 : node.meshBonePose.get? 0 with
        | none =>
          exfalso
          obtain ⟨hlt, _⟩ := List.get?_eq_some.mp hg
          rw [List.get?_eq_none] at h0
          omega
        | some w => rfl
      · rw [if_neg hp, if_neg hp]
        by_cases hb : bi > 0
        · rw [if_pos hb, if_pos hb]
        · rw [if_neg hb, if_neg hb]

/-- Lookup shape after processing `m` bones of a source: bones already
processed resolve to their new value, everything else falls back to the
pre-source map. -/
def stepFind {α : Type} (S : Skeleton) (m : Nat) (nm : String)
    (newVal : Nat → Option α) (oldVal : Option α) : Option α :=
  match idxOfSuffixed? S nm with
  | some j => if j < m then newVal j else oldVal
  | none => oldVal

theorem idxOfSuffixed?_some (S : Skeleton) {nm : String} {j : Nat}
    (h : idxOfSuffixed? S nm = some j) :
    j < S.boneInfo.length ∧ suffName S j = nm := by
  unfold idxOfSuffixed? at h
  rw [List.findIdx?_eq_some_iff_findIdx_eq] at h
  obtain ⟨hj, hfi⟩ := h
  refine ⟨hj, ?_⟩
  have := (List.findIdx_eq hj).mp hfi
  have h1 := this.1
  simp only [decide_eq_true_eq] at h1
  rw [suffName]
  have : nameOf S j = (S.boneInfo.get ⟨j, hj⟩).name := by
    unfold nameOf
    rw [List.get?_eq_get hj]
    rfl
  rw [this]
  exact h1

/-- Updating the map at bone `m`'s suffixed name with its specified value
advances the lookup characterization from `m` to `m + 1`. -/
theorem mapAdd_stepFind {α : Type} (S : Skeleton) (hwf : WellFormedSkeleton S)
    (m : Nat) (hm : m < S.boneInfo.length) (cur : List (String × α))
    (old : String → Option α) (spec : Nat → α)
    (hfind : ∀ nm, mapFind? cur nm = stepFind S m nm (fun j => some (spec j)) (old nm)) :
    ∀ nm, mapFind? (mapAdd cur (suffName S m) (spec m)) nm =
      stepFind S (m + 1) nm (fun j => some (spec j)) (old nm) := by
  intro nm
  rw [mapFind?_mapAdd, hfind nm]
  unfold stepFind
  by_cases he : suffName S m = nm
  · rw [if_pos he, ← he, idxOfSuffixed?_suffName S hwf m hm]
    simp
  · rw [if_neg he]
    cases hidx : idxOfSuffixed? S nm with
    | none => rfl
    | some j =>
      have hj : j ≠ m := by
        intro hjm
        subst hjm
        exact he (idxOfSuffixed?_some S hidx).2
      dsimp only
      by_cases hjm : j < m
      · rw [if_pos hjm, if_pos (by omega)]
      · rw [if_neg hjm, if_neg (by omega)]

/-- The expected child-set map content after processing `m` bones: the
pre-source set for a path key, extended in order with the suffixed names of
the processed bones carrying that strict key. -/
def setsSpec (S : Skeleton) (R : HashVal) (st0 : AccumState) (m : Nat)
    (K : HashVal) : Option (List String) :=
  match mapFind? st0.hierarchy.pathHashToBoneNames K,
      (List.range m).filter (fun j => strictKeySpec S R j = K) with
  | none, [] => none
  | base, js => some (js.foldl (fun s j => setAdd s (suffName S j)) (base.getD []))

theorem multiMapAdd_setsSpec (S : Skeleton) (R : HashVal) (st0 : AccumState)
    (m : Nat) (cur : List (HashVal × List String))
    (hfind : ∀ K, mapFind? cur K = setsSpec S R st0 m K) :
    ∀ K, mapFind? (multiMapAdd cur (strictKeySpec S R m) (suffName S m)) K =
      setsSpec S R st0 (m + 1) K := by
  intro K
  rw [mapFind?_multiMapAdd]
  by_cases hK : strictKeySpec S R m = K
  · subst hK
    rw [if_pos rfl, hfind _]
    unfold setsSpec
    rw [List.range_succ, List.filter_append]
    have hfm : List.filter (fun j => decide (strictKeySpec S R j = strictKeySpec S R m)) [m] =
        [m] := by simp
    rw [hfm]
    cases hbase : mapFind? st0.hierarchy.pathHashToBoneNames (strictKeySpec S R m) with
    | none =>
      cases hjs : (List.range m).filter
          (fun j => decide (strictKeySpec S R j = strictKeySpec S R m)) with
      | nil => simp [setAdd]
      | cons j js => simp [List.foldl_append]
    | some s0 =>
      cases hjs : (List.range m).filter
          (fun j => decide (strictKeySpec S R j = strictKeySpec S R m)) with
      | nil => simp [List.foldl_append]
      | cons j js => simp [List.foldl_append]
  · rw [if_neg hK, hfind K]
    unfold setsSpec
    rw [List.range_succ, List.filter_append]
    have hfm : List.filter (fun j => decide (strictKeySpec S R j = K)) [m] = [] := by
      simp [hK]
    rw [hfm, List.append_nil]

/-- Invariant of the bone loop after processing the first `m` bones of one
source, relative to the state `st0` at source entry: lookups of processed
bones resolve to their computed keys/poses, everything else is untouched,
and the ghost trace extends by one entry per processed bone. -/
structure LoopInv (si : Nat) (S : Skeleton) (R : HashVal) (trFun : Nat → Transform)
    (st0 : AccumState) (m : Nat) (st : AccumState) : Prop where
  findPath : ∀ nm, mapFind? st.boneNamesToPathHash nm =
    stepFind S m nm (fun j => some (strictKeySpec S R j))
      (mapFind? st0.boneNamesToPathHash nm)
  findPose : ∀ nm, mapFind? st.hierarchy.boneNamePose nm =
    stepFind S m nm (fun j => some (trFun j))
      (mapFind? st0.hierarchy.boneNamePose nm)
  findFull : ∀ nm, mapFind? st.hierarchy.pathToBoneNames nm =
    stepFind S m nm (fun j => some (fullKeySpec S R j))
      (mapFind? st0.hierarchy.pathToBoneNames nm)
  findSets : ∀ K, mapFind? st.hierarchy.pathHashToBoneNames K = setsSpec S R st0 m K
  poseMapEq : st.boneNamesToBonePose = st0.boneNamesToBonePose
  socketsEq : st.hashToSockets = st0.hashToSockets
  failedEq : st.bMergeSkeletonsFailed = st0.bMergeSkeletonsFailed
  warningsEq : st.warnings = st0.warnings
  traceEq : st.trace = st0.trace ++
    (List.range m).map (fun j => ⟨si, j, suffName S j, fullKeySpec S R j⟩)

theorem loopInv_zero (si : Nat) (S : Skeleton) (R : HashVal)
    (trFun : Nat → Transform) (st0 : AccumState) :
    LoopInv si S R trFun st0 0 st0 := by
  refine ⟨?_, ?_, ?_, ?_, rfl, rfl, rfl, rfl, by simp⟩
  · intro nm
    unfold stepFind
    cases idxOfSuffixed? S nm with
    | none => rfl
    | some j => simp
  · intro nm
    unfold stepFind
    cases idxOfSuffixed? S nm with
    | none => rfl
    | some j => simp
  · intro nm
    unfold stepFind
    cases idxOfSuffixed? S nm with
    | none => rfl
    | some j => simp
  · intro K
    unfold setsSpec
    cases hbase : mapFind? st0.hierarchy.pathHashToBoneNames K with
    | none => simp
    | some s0 => simp

/-- One-step characterization of `boneStepTail` under the invariant: when
the combined parent key equals bone `m`'s specified strict key and the
transform computation yields the specified transform, the step succeeds
without a break and advances the invariant. -/
theorem boneStepTail_characterize (params : SkeletonMergeParams) (si : Nat)
    (S : Skeleton) (hwf : WellFormedSkeleton S)
    (hcheck : params.bCheckSkeletonsCompatibility = false)
    (st0 : AccumState) (R : HashVal) (trFun : Nat → Transform)
    (m : Nat) (hm : m < S.boneInfo.length) (c : Bool) (reg : Option SCSNode)
    (st : AccumState) (hinv : LoopInv si S R trFun st0 m st)
    (parentName : String) (parentHash : HashVal)
    (hkey : HashVal.combine ((mapFind? st.boneNamesToPathHash parentName).getD .zero)
      parentHash = strictKeySpec S R m)
    (htr : (if si > 0 then
        computeMergedTransform reg (S.boneInfo.get ⟨m, hm⟩) m (suffName S m) (poseOf S m)
      else some (poseOf S m)) = some (trFun m)) :
    ∃ st', boneStepTail params si m c reg st (S.boneInfo.get ⟨m, hm⟩) (poseOf S m)
        parentName parentHash = some (c, reg, st', false) ∧
      LoopInv si S R trFun st0 (m + 1) st' := by
  have hbn : pathAppend (S.boneInfo.get ⟨m, hm⟩).name "1" = suffName S m := by
    unfold suffName nameOf
    rw [List.get?_eq_get hm]
    rfl
  have hchk : ¬(params.bCheckSkeletonsCompatibility = true) := by simp [hcheck]
  unfold boneStepTail
  dsimp only
  rw [if_neg hchk, if_neg hchk]
  dsimp only
  rw [hbn, hkey, htr]
  dsimp only
  refine ⟨_, rfl, ?_⟩
  constructor
  · exact mapAdd_stepFind S hwf m hm st.boneNamesToPathHash
      (fun nm => mapFind? st0.boneNamesToPathHash nm) (strictKeySpec S R) hinv.findPath
  · show ∀ nm, mapFind? (mapAdd st.hierarchy.boneNamePose (suffName S m) (trFun m)) nm = _
    exact mapAdd_stepFind S hwf m hm st.hierarchy.boneNamePose
      (fun nm => mapFind? st0.hierarchy.boneNamePose nm) trFun hinv.findPose
  · show ∀ nm, mapFind? (mapAdd st.hierarchy.pathToBoneNames (suffName S m)
      (HashVal.combine (strictKeySpec S R m) (.nameHash (suffName S m)))) nm = _
    have heq : HashVal.combine (strictKeySpec S R m) (.nameHash (suffName S m)) =
        fullKeySpec S R m := rfl
    rw [heq]
    exact mapAdd_stepFind S hwf m hm st.hierarchy.pathToBoneNames
      (fun nm => mapFind? st0.hierarchy.pathToBoneNames nm) (fullKeySpec S R) hinv.findFull
  · show ∀ K, mapFind? (multiMapAdd st.hierarchy.pathHashToBoneNames
      (strictKeySpec S R m) (suffName S m)) K = _
    exact multiMapAdd_setsSpec S R st0 m st.hierarchy.pathHashToBoneNames hinv.findSets
  · exact hinv.poseMapEq
  · exact hinv.socketsEq
  · exact hinv.failedEq
  · exact hinv.warningsEq
  · show st.trace ++ [⟨si, m, suffName S m,
      HashVal.combine (strictKeySpec S R m) (.nameHash (suffName S m))⟩] = _
    rw [hinv.traceEq, List.range_succ, List.map_append, List.append_assoc]
    rfl

theorem stepFind_zero {α : Type} (S : Skeleton) (nm : String)
    (f : Nat → Option α) (old : Option α) : stepFind S 0 nm f old = old := by
  unfold stepFind
  cases idxOfSuffixed? S nm with
  | none => rfl
  | some j => simp

theorem suffName_get (S : Skeleton) (j : Nat) (hj : j < S.boneInfo.length) :
    pathAppend (S.boneInfo.get ⟨j, hj⟩).name "1" = suffName S j := by
  unfold suffName nameOf
  rw [List.get?_eq_get hj]
  rfl

/-- The per-source branch data for the characterization: a primary source
(`si = 0`) hashes its root against the `"None/1"` lookup, a secondary source
re-homes its root under the suffixed attach-socket name of its matching
scene node, whose transform adjustment also fixes the recorded poses. -/
def BranchHyp (nodes : List SCSNode) (si : Nat) (S : Skeleton)
    (st0 : AccumState) (R : HashVal) (trFun : Nat → Transform)
    (nodeArg : Option SCSNode) : Prop :=
  (si = 0 ∧ nodeArg = none ∧
    R = .combine ((mapFind? st0.boneNamesToPathHash (pathAppend "None" "1")).getD .zero)
      .zero ∧
    (∀ j, j < S.boneInfo.length → trFun j = poseOf S j)) ∨
  (0 < si ∧ ∃ idx node, nodeArg = some node ∧
    findMatchingNode nodes S = some (idx, node) ∧
    isNoneName (pathAppend node.attachToName "1") = false ∧
    R = .combine
      ((mapFind? st0.boneNamesToPathHash (pathAppend node.attachToName "1")).getD .zero)
      (.nameHash (pathAppend node.attachToName "1")) ∧
    (∀ j (hj : j < S.boneInfo.length),
      trFun j = graftTransformSpec node (S.boneInfo.get ⟨j, hj⟩) j (suffName S j)
        (poseOf S j)))

/-- One-step characterization of `boneStep` under the invariant. -/
theorem boneStep_characterize (params : SkeletonMergeParams) (nodes : List SCSNode)
    (si : Nat) (S : Skeleton) (hwf : WellFormedSkeleton S)
    (hcheck : params.bCheckSkeletonsCompatibility = false)
    (st0 : AccumState) (R : HashVal) (trFun : Nat → Transform)
    (nodeArg : Option SCSNode)
    (hbranch : BranchHyp nodes si S st0 R trFun nodeArg)
    (m : Nat) (hm : m < S.boneInfo.length) (c : Bool)
    (reg : Option SCSNode) (hreg : si = 0 ∨ m = 0 ∨ reg = nodeArg)
    (st : AccumState) (hinv : LoopInv si S R trFun st0 m st) :
    ∃ st', boneStep params nodes si S m c reg st (S.boneInfo.get ⟨m, hm⟩) =
        some (c, (if si = 0 then reg else nodeArg), st', false) ∧
      LoopInv si S R trFun st0 (m + 1) st' := by
  have hposelen : m < S.bonePose.length := by rw [hwf.poseLen]; exact hm
  have hpose : S.bonePose.get? m = some (poseOf S m) := by
    unfold poseOf
    rw [List.get?_eq_get hposelen]
    rfl
  unfold boneStep
  rw [hpose]
  dsimp only
  match hmz : m with
  | 0 =>
    have hpar0 : (S.boneInfo.get ⟨0, hm⟩).parentIndex = none := by
      cases hp : (S.boneInfo.get ⟨0, hm⟩).parentIndex with
      | none => rfl
      | some pi => exact absurd (hwf.parentLt 0 hm pi hp) (by omega)
    rw [hpar0]
    dsimp only
    have hstrict0 : strictKeySpec S R 0 = R := by
      unfold strictKeySpec
      rw [parentChain_root S 0 hm hpar0]
      rfl
    rcases hbranch with ⟨hsi, hnode, hR, htrf⟩ | ⟨hsi, idx, node, hnode, hfnode, hnn, hR, htrf⟩
    · subst hsi
      rw [if_neg (by simp)]
      dsimp only
      have hkey : HashVal.combine
          ((mapFind? st.boneNamesToPathHash (pathAppend "None" "1")).getD .zero) .zero =
          strictKeySpec S R 0 := by
        rw [hinv.findPath, stepFind_zero, hstrict0, hR]
      obtain ⟨st', hstep, hinv'⟩ := boneStepTail_characterize params 0 S hwf hcheck
        st0 R trFun 0 hm c reg st hinv (pathAppend "None" "1") .zero hkey
        (by
          rw [if_neg (by omega)]
          rw [htrf 0 hm])
      rw [if_pos rfl]
      exact ⟨st', hstep, hinv'⟩
    · subst hnode
      rw [if_pos ⟨hsi, rfl⟩, hfnode]
      dsimp only
      rw [if_neg (by simp [hnn])]
      have hkey : HashVal.combine
          ((mapFind? st.boneNamesToPathHash (pathAppend node.attachToName "1")).getD .zero)
          (.nameHash (pathAppend node.attachToName "1")) = strictKeySpec S R 0 := by
        rw [hinv.findPath, stepFind_zero, hstrict0, hR]
      obtain ⟨st', hstep, hinv'⟩ := boneStepTail_characterize params si S hwf hcheck
        st0 R trFun 0 hm c (some node) st hinv (pathAppend node.attachToName "1")
        (.nameHash (pathAppend node.attachToName "1")) hkey
        (by
          rw [if_pos hsi, computeMergedTransform_some, htrf 0 hm])
      rw [if_neg (by omega)]
      exact ⟨st', hstep, hinv'⟩
  | Nat.succ m' =>
    have hpar : ∃ pi, (S.boneInfo.get ⟨m' + 1, hm⟩).parentIndex = some pi := by
      cases hp : (S.boneInfo.get ⟨m' + 1, hm⟩).parentIndex with
      | none => exact absurd (hwf.rootAtZero (m' + 1) hm hp) (by omega)
      | some pi => exact ⟨pi, rfl⟩
    obtain ⟨pi, hp⟩ := hpar
    have hpilt : pi < m' + 1 := hwf.parentLt (m' + 1) hm pi hp
    have hpilen : pi < S.boneInfo.length := by omega
    rw [hp]
    dsimp only
    rw [List.get?_eq_get hpilen]
    dsimp only [Option.map]
    rw [if_neg (show ¬(si > 0 ∧ (some pi : Option Nat) = none) by simp)]
    have hpn : pathAppend (S.boneInfo.get ⟨pi, hpilen⟩).name "1" = suffName S pi :=
      suffName_get S pi hpilen
    rw [hpn]
    have hkey : HashVal.combine
        ((mapFind? st.boneNamesToPathHash (suffName S pi)).getD .zero)
        (.nameHash (suffName S pi)) = strictKeySpec S R (m' + 1) := by
      rw [hinv.findPath]
      unfold stepFind
      rw [idxOfSuffixed?_suffName S hwf pi hpilen]
      dsimp only
      rw [if_pos hpilt]
      show HashVal.combine (strictKeySpec S R pi) (.nameHash (suffName S pi)) = _
      unfold strictKeySpec
      rw [parentChain_eq_step S hwf (m' + 1) hm pi hp]
      unfold suffixedChain
      rw [List.map_append, chainEncode_append]
      rfl
    rcases hbranch with ⟨hsi, hnode, hR, htrf⟩ | ⟨hsi, idx, node, hnode, hfnode, hnn, hR, htrf⟩
    · subst hsi
      obtain ⟨st', hstep, hinv'⟩ := boneStepTail_characterize params 0 S hwf hcheck
        st0 R trFun (m' + 1) hm c reg st hinv (suffName S pi)
        (.nameHash (suffName S pi)) hkey
        (by
          rw [if_neg (by omega)]
          rw [htrf (m' + 1) hm])
      rw [if_pos rfl]
      exact ⟨st', hstep, hinv'⟩
    · have hregn : reg = nodeArg := by
        rcases hreg with h1 | h1 | h1
        · omega
        · omega
        · exact h1
      subst hregn
      subst hnode
      obtain ⟨st', hstep, hinv'⟩ := boneStepTail_characterize params si S hwf hcheck
        st0 R trFun (m' + 1) hm c (some node) st hinv (suffName S pi)
        (.nameHash (suffName S pi)) hkey
        (by
          rw [if_pos hsi, computeMergedTransform_some, htrf (m' + 1) hm])
      rw [if_neg (by omega)]
      exact ⟨st', hstep, hinv'⟩

/-- The bone loop preserves and completes the invariant: starting at bone
`m` with the invariant, it scans to the end without crash or break. -/
theorem processBones_characterize (params : SkeletonMergeParams)
    (nodes : List SCSNode) (si : Nat) (S : Skeleton) (hwf : WellFormedSkeleton S)
    (hcheck : params.bCheckSkeletonsCompatibility = false)
    (st0 : AccumState) (R : HashVal) (trFun : Nat → Transform)
    (nodeArg : Option SCSNode)
    (hbranch : BranchHyp nodes si S st0 R trFun nodeArg) :
    ∀ rem m, m + rem = S.boneInfo.length → ∀ c reg,
      (si = 0 ∨ m = 0 ∨ reg = nodeArg) → ∀ st, LoopInv si S R trFun st0 m st →
      ∃ st1, processBonesFrom params nodes si S rem m c reg st = some st1 ∧
        LoopInv si S R trFun st0 S.boneInfo.length st1 := by
  intro rem
  induction rem with
  | zero =>
    intro m hrm c reg hreg st hinv
    have hmlen : m = S.boneInfo.length := by omega
    subst hmlen
    exact ⟨st, rfl, hinv⟩
  | succ rem ih =>
    intro m hrm c reg hreg st hinv
    have hm : m < S.boneInfo.length := by omega
    obtain ⟨st', hstep, hinv'⟩ := boneStep_characterize params nodes si S hwf hcheck
      st0 R trFun nodeArg hbranch m hm c reg hreg st hinv
    unfold processBonesFrom
    rw [dif_pos hm, hstep]
    dsimp only
    rw [if_neg (by simp)]
    refine ih (m + 1) (by omega) c _ ?_ st' hinv'
    by_cases hsi : si = 0
    · exact Or.inl hsi
    · refine Or.inr (Or.inr ?_)
      rw [if_neg hsi]

/-- Characterization of one full `processSource` call under the invariant
(compatibility checking off): every bone is scanned, the maps and ghost
trace are extended per the per-bone keys/poses, and the socket map is folded
when socket merging is enabled. -/
theorem processSource_characterize (params : SkeletonMergeParams)
    (nodes : List SCSNode) (si : Nat) (S : Skeleton) (hwf : WellFormedSkeleton S)
    (hcheck : params.bCheckSkeletonsCompatibility = false)
    (st0 : AccumState) (R : HashVal) (trFun : Nat → Transform)
    (nodeArg : Option SCSNode)
    (hbranch : BranchHyp nodes si S st0 R trFun nodeArg) :
    ∃ st1, processSource params nodes si S st0 = some st1 ∧
      LoopInv si S R trFun
        { st0 with hashToSockets :=
            if params.bMergeSockets then collectSockets st0.hashToSockets S.sockets
            else st0.hashToSockets }
        S.boneInfo.length st1 := by
  obtain ⟨stL, hloop, hinvL⟩ := processBones_characterize params nodes si S hwf hcheck
    st0 R trFun nodeArg hbranch S.boneInfo.length 0 (by omega) false none
    (Or.inr (Or.inl rfl)) st0 (loopInv_zero si S R trFun st0)
  unfold processSource
  rw [hloop]
  dsimp only
  rw [if_neg (by simp [hcheck])]
  by_cases hsock : params.bMergeSockets
  · rw [if_pos hsock, if_pos hsock]
    refine ⟨_, rfl, ?_⟩
    refine ⟨hinvL.findPath, hinvL.findPose, hinvL.findFull, ?_, hinvL.poseMapEq, ?_,
      hinvL.failedEq, hinvL.warningsEq, hinvL.traceEq⟩
    · intro K
      have := hinvL.findSets K
      rw [this]
      unfold setsSpec
      rfl
    · show collectSockets stL.hashToSockets S.sockets = _
      rw [hinvL.socketsEq]
  · rw [if_neg hsock, if_neg hsock]
    refine ⟨_, rfl, ?_⟩
    refine ⟨hinvL.findPath, hinvL.findPose, hinvL.findFull, ?_, hinvL.poseMapEq,
      hinvL.socketsEq, hinvL.failedEq, hinvL.warningsEq, hinvL.traceEq⟩
    intro K
    have := hinvL.findSets K
    rw [this]

/-- A reconstructed `"/1"`-suffixed name is never the `None` name. -/
theorem isNoneName_pathAppend_one (x : String) :
    isNoneName (pathAppend x "1") = false := by
  have hlast : (pathAppend x "1").data.getLast? = some '1' := by
    unfold pathAppend
    by_cases h1 : x.isEmpty
    · rw [if_pos h1]
      rfl
    · rw [if_neg h1]
      by_cases h2 : endsWithSlash x
      · rw [if_pos h2]
        rw [String.data_append]
        show (x.data ++ ['1']).getLast? = some '1'
        simp
      · rw [if_neg h2]
        rw [String.data_append, String.data_append]
        rw [List.append_assoc]
        rw [List.getLast?_append_of_ne_nil x.data (by simp)]
        rfl
  unfold isNoneName
  simp only [Bool.or_eq_false_iff, decide_eq_false_iff_not]
  constructor
  · intro he
    rw [he] at hlast
    simp [String.data] at hlast
  · intro he
    rw [he] at hlast
    simp [String.data] at hlast

/-- Every name in a bone's full chain is a bone name, hence separator-free. -/
theorem nameChain_noSlash (S : Skeleton) (hwf : WellFormedSkeleton S)
    (j : Nat) (hj : j < S.boneInfo.length) :
    ∀ n ∈ nameChain S.boneInfo j, endsWithSlash n = false := by
  intro n hn
  unfold nameChain at hn
  rcases List.mem_append.mp hn with h1 | h1
  · obtain ⟨b, hb1, hb2⟩ := parentChain_mem S hwf j hj n h1
    rw [← hb2]
    exact hwf.noSlash b hb1
  · have : n = nameOf S j := by
      rw [List.mem_singleton] at h1
      exact h1
    subst this
    have hname : nameOf S j = (S.boneInfo.get ⟨j, hj⟩).name := by
      unfold nameOf
      rw [List.get?_eq_get hj]
      rfl
    rw [hname]
    exact hwf.noSlash _ (List.get_mem _ _ _)

/-- Injectivity of the suffixed chain encoding on separator-free chains. -/
theorem chainEncode_suffixed_iff (c d : List String)
    (hc : ∀ n ∈ c, endsWithSlash n = false)
    (hd : ∀ n ∈ d, endsWithSlash n = false) :
    chainEncode rootParentHash (suffixedChain c) =
      chainEncode rootParentHash (suffixedChain d) ↔ c = d := by
  constructor
  · intro h
    exact suffixedChain_inj c d hc hd (chainEncode_injective h)
  · intro h
    rw [h]

/-- The transform function recorded for bones of a grafted secondary
source. -/
def graftTrFun (node : SCSNode) (Sb : Skeleton) (j : Nat) : Transform :=
  if hj : j < Sb.boneInfo.length then
    graftTransformSpec node (Sb.boneInfo.get ⟨j, hj⟩) j (suffName Sb j) (poseOf Sb j)
  else poseOf Sb j

/-- End-to-end characterization of the two-source accumulation
`[Sa, Sb]` with `Sb`'s root grafted (via its scene node) under `Sa`'s bone
`it` named `t`, compatibility checking off: the merge succeeds, the ghost
trace records each bone occurrence with its full path key (the secondary
source's keys are built on top of the attach bone's full key), and the
recorded pose of each `Sb` bone is its graft-adjusted transform. -/
theorem graftAccum_characterize (Sa Sb : Skeleton) (node : SCSNode) (t : String)
    (it : Nat) (sflag : Bool)
    (hwfA : WellFormedSkeleton Sa) (hwfB : WellFormedSkeleton Sb)
    (hnodeskel : node.skeleton = Sb) (hattach : node.attachToName = t)
    (hit : it < Sa.boneInfo.length) (hitname : nameOf Sa it = t) :
    ∃ st, accumulateSkeletons ⟨[some Sa, some Sb], false, sflag⟩ [node] [Sa, Sb] =
        some st ∧
      st.trace =
        (List.range Sa.boneInfo.length).map
          (fun j => ⟨0, j, suffName Sa j, fullKeySpec Sa rootParentHash j⟩) ++
        (List.range Sb.boneInfo.length).map
          (fun j => ⟨1, j, suffName Sb j,
            fullKeySpec Sb (fullKeySpec Sa rootParentHash it) j⟩) ∧
      (∀ j (hj : j < Sb.boneInfo.length),
        mapFind? st.hierarchy.boneNamePose (suffName Sb j) =
          some (graftTransformSpec node (Sb.boneInfo.get ⟨j, hj⟩) j (suffName Sb j)
            (poseOf Sb j))) := by
  have hbranchA : BranchHyp [node] 0 Sa AccumState.initial rootParentHash
      (poseOf Sa) none :=
    Or.inl ⟨rfl, rfl, rfl, fun j _ => rfl⟩
  obtain ⟨st1, hsrcA, hinvA⟩ := processSource_characterize
    ⟨[some Sa, some Sb], false, sflag⟩ [node] 0 Sa hwfA rfl
    AccumState.initial rootParentHash (poseOf Sa) none hbranchA
  have ht1 : pathAppend t "1" = suffName Sa it := by
    rw [← hitname]
    rfl
  have hfind_t1 : mapFind? st1.boneNamesToPathHash (suffName Sa it) =
      some (strictKeySpec Sa rootParentHash it) := by
    rw [hinvA.findPath]
    unfold stepFind
    rw [idxOfSuffixed?_suffName Sa hwfA it hit]
    dsimp only
    rw [if_pos hit]
  have hbranchB : BranchHyp [node] 1 Sb st1 (fullKeySpec Sa rootParentHash it)
      (graftTrFun node Sb) (some node) := by
    refine Or.inr ⟨by omega, 0, node, rfl, ?_, ?_, ?_, ?_⟩
    · unfold findMatchingNode
      simp [hnodeskel]
    · rw [hattach]
      exact isNoneName_pathAppend_one t
    · rw [hattach, ht1, hfind_t1]
      rfl
    · intro j hj
      unfold graftTrFun
      rw [dif_pos hj]
  obtain ⟨st2, hsrcB, hinvB⟩ := processSource_characterize
    ⟨[some Sa, some Sb], false, sflag⟩ [node] 1 Sb hwfB rfl
    st1 (fullKeySpec Sa rootParentHash it) (graftTrFun node Sb) (some node) hbranchB
  have hacc : accumulateSkeletons ⟨[some Sa, some Sb], false, sflag⟩ [node] [Sa, Sb] =
      (match processSource ⟨[some Sa, some Sb], false, sflag⟩ [node] 0 Sa
          AccumState.initial with
        | none => none
        | some st => processSource ⟨[some Sa, some Sb], false, sflag⟩ [node] 1 Sb st) :=
    rfl
  refine ⟨st2, ?_, ?_, ?_⟩
  · rw [hacc, hsrcA]
    exact hsrcB
  · have htr1 : st1.trace =
        (List.range Sa.boneInfo.length).map
          (fun j => ⟨0, j, suffName Sa j, fullKeySpec Sa rootParentHash j⟩) := by
      have := hinvA.traceEq
      simpa using this
    have := hinvB.traceEq
    rw [this]
    show st1.trace ++ _ = _
    rw [htr1]
  · intro j hj
    rw [hinvB.findPose]
    unfold stepFind
    rw [idxOfSuffixed?_suffName Sb hwfB j hj]
    dsimp only
    rw [if_pos hj]
    unfold graftTrFun
    rw [dif_pos hj]

/-- The ancestor-name chain of a bone occurrence within the merged tree:
primary-source bones keep their own full chain, grafted secondary bones are
rooted below the attach bone's full chain. -/
def mergedChainSpec (Sa Sb : Skeleton) (it : Nat) (s j : Nat) : List String :=
  if s = 0 then nameChain Sa.boneInfo j
  else nameChain Sa.boneInfo it ++ nameChain Sb.boneInfo j

/-- Executable sufficient condition for `WellFormedSkeleton`, used to
discharge well-formedness of concrete example skeletons by evaluation. -/
def wfCheck (S : Skeleton) : Bool :=
  decide (S.bonePose.length = S.boneInfo.length) &&
  ((List.range S.boneInfo.length).all (fun i =>
    match S.boneInfo.get? i with
    | none => true
    | some b =>
      match b.parentIndex with
      | none => decide (i = 0)
      | some pi => decide (pi < i))) &&
  decide ((S.boneInfo.map (fun b => b.name)).Nodup) &&
  S.boneInfo.all (fun b => !(endsWithSlash b.name))

theorem wfCheck_sound (S : Skeleton) (h : wfCheck S = true) :
    WellFormedSkeleton S := by
  unfold wfCheck at h
  simp only [Bool.and_eq_true, List.all_eq_true, List.mem_range] at h
  obtain ⟨⟨⟨h1, h2⟩, h3⟩, h4⟩ := h
  refine ⟨by simpa using h1, ?_, ?_, by simpa using h3, ?_⟩
  · intro i hi pi hpi
    have hh := h2 i hi
    rw [List.get?_eq_get hi] at hh
    dsimp only at hh
    rw [hpi] at hh
    simpa using hh
  · intro i hi hpi
    have hh := h2 i hi
    rw [List.get?_eq_get hi] at hh
    dsimp only at hh
    rw [hpi] at hh
    simpa using hh
  · intro b hb
    simpa using h4 b hb

/-! ## Claim C4 -/

/-- C4: in a merge of two well-formed source skeletons (the second grafted
under bone `t` of the first through its scene node, compatibility checking
off), every bone occurrence is processed and recorded in the ghost trace,
and two occurrences receive the same full `PathKey`
(`HashCombine(BonePathHash, GetTypeHash(Bone_Name))`) if and only if their
full ancestor-name chains from the merged root down to the bone itself are
identical. In particular, identically-named bones with different ancestor
chains receive distinct keys and are not merged into one bone. -/
theorem c4_pathkey_iff_chains (Sa Sb : Skeleton) (node : SCSNode) (t : String)
    (it : Nat) (sflag : Bool)
    (hwfA : WellFormedSkeleton Sa) (hwfB : WellFormedSkeleton Sb)
    (hnodeskel : node.skeleton = Sb) (hattach : node.attachToName = t)
    (hit : it < Sa.boneInfo.length) (hitname : nameOf Sa it = t) :
    ∃ st, accumulateSkeletons ⟨[some Sa, some Sb], false, sflag⟩ [node] [Sa, Sb] =
        some st ∧
      (∀ s j, (s = 0 ∧ j < Sa.boneInfo.length) ∨ (s = 1 ∧ j < Sb.boneInfo.length) →
        ∃ e ∈ st.trace, e.si = s ∧ e.bi = j) ∧
      (∀ e1 ∈ st.trace, ∀ e2 ∈ st.trace,
        (e1.pathKey = e2.pathKey ↔
          mergedChainSpec Sa Sb it e1.si e1.bi =
            mergedChainSpec Sa Sb it e2.si e2.bi)) := by
  obtain ⟨st, hacc, htrace, _⟩ := graftAccum_characterize Sa Sb node t it sflag
    hwfA hwfB hnodeskel hattach hit hitname
  have hmem : ∀ e ∈ st.trace,
      ((e.si = 0 ∧ e.bi < Sa.boneInfo.length) ∨
        (e.si = 1 ∧ e.bi < Sb.boneInfo.length)) ∧
      e.pathKey = chainEncode rootParentHash
        (suffixedChain (mergedChainSpec Sa Sb it e.si e.bi)) := by
    intro e he
    rw [htrace] at he
    rcases List.mem_append.mp he with h1 | h1
    · obtain ⟨j, hj, hje⟩ := List.mem_map.mp h1
      rw [List.mem_range] at hj
      subst hje
      refine ⟨Or.inl ⟨rfl, hj⟩, ?_⟩
      show fullKeySpec Sa rootParentHash j =
        chainEncode rootParentHash (suffixedChain (mergedChainSpec Sa Sb it 0 j))
      unfold mergedChainSpec
      rw [if_pos rfl]
      exact fullKeySpec_eq_encode Sa rootParentHash j
    · obtain ⟨j, hj, hje⟩ := List.mem_map.mp h1
      rw [List.mem_range] at hj
      subst hje
      refine ⟨Or.inr ⟨rfl, hj⟩, ?_⟩
      show fullKeySpec Sb (fullKeySpec Sa rootParentHash it) j =
        chainEncode rootParentHash (suffixedChain (mergedChainSpec Sa Sb it 1 j))
      unfold mergedChainSpec
      rw [if_neg (by omega)]
      rw [fullKeySpec_eq_encode, fullKeySpec_eq_encode]
      simp only [suffixedChain, List.map_append]
      rw [chainEncode_append]
  have hslash : ∀ e ∈ st.trace,
      ∀ n ∈ mergedChainSpec Sa Sb it e.si e.bi, endsWithSlash n = false := by
    intro e he n hn
    rcases (hmem e he).1 with ⟨hs, hb⟩ | ⟨hs, hb⟩
    · rw [hs] at hn
      unfold mergedChainSpec at hn
      rw [if_pos rfl] at hn
      exact nameChain_noSlash Sa hwfA _ hb n hn
    · rw [hs] at hn
      unfold mergedChainSpec at hn
      rw [if_neg (by omega)] at hn
      rcases List.mem_append.mp hn with h1 | h1
      · exact nameChain_noSlash Sa hwfA it hit n h1
      · exact nameChain_noSlash Sb hwfB _ hb n h1
  refine ⟨st, hacc, ?_, ?_⟩
  · intro s j hsj
    rcases hsj with ⟨hs, hj⟩ | ⟨hs, hj⟩
    · refine ⟨⟨0, j, suffName Sa j, fullKeySpec Sa rootParentHash j⟩, ?_, by simp [hs]⟩
      rw [htrace]
      refine List.mem_append_left _ ?_
      exact List.mem_map.mpr ⟨j, List.mem_range.mpr hj, rfl⟩
    · refine ⟨⟨1, j, suffName Sb j,
        fullKeySpec Sb (fullKeySpec Sa rootParentHash it) j⟩, ?_, by simp [hs]⟩
      rw [htrace]
      refine List.mem_append_right _ ?_
      exact List.mem_map.mpr ⟨j, List.mem_range.mpr hj, rfl⟩
  · intro e1 he1 e2 he2
    rw [(hmem e1 he1).2, (hmem e2 he2).2]
    exact chainEncode_suffixed_iff _ _ (hslash e1 he1) (hslash e2 he2)

/-! ## Concrete example data for counterexamples and witnesses -/

/-- Identity transform. -/
def idT : Transform := ⟨⟨0, 0, 0, 1⟩, ⟨0, 0, 0⟩, ⟨1, 1, 1⟩⟩

/-- Identity rotation/scale with the given location. -/
def locT (x y z : ℤ) : Transform := ⟨⟨0, 0, 0, 1⟩, ⟨x, y, z⟩, ⟨1, 1, 1⟩⟩

/-- A merged hierarchy holding two root candidates: both bones were added
with parent path key `HashCombine(0,0)`. -/
def twoRootHierarchy : FMergedBoneHierarchy :=
  (FMergedBoneHierarchy.empty.AddBone "A" idT rootParentHash).AddBone "B" idT
    rootParentHash

/-- A merged hierarchy holding a two-bone chain `Root -> Child`. -/
def chainHierarchy : FMergedBoneHierarchy :=
  (FMergedBoneHierarchy.empty.AddBone "Root" idT rootParentHash).AddBone "Child" idT
    (.combine rootParentHash (.nameHash "Root"))

/-- A single-bone skeleton. -/
def oneBoneSkeleton : Skeleton := ⟨[⟨"Root", none⟩], [idT], []⟩

/-- A single-bone skeleton with a different reference pose. -/
def otherPoseSkeleton : Skeleton := ⟨[⟨"Root", none⟩], [locT 5 5 5], []⟩

/-- Scene node grafting `otherPoseSkeleton` under bone `Root`. -/
def graftNode : SCSNode :=
  ⟨otherPoseSkeleton, otherPoseSkeleton.boneInfo, otherPoseSkeleton.bonePose,
    "Root", idT, []⟩

/-- Witness for C4 at a concrete two-source merge: `Sa = Root -> Arm`,
`Sb = Hand` grafted under `Arm`. -/
def saC4 : Skeleton := ⟨[⟨"Root", none⟩, ⟨"Arm", some 0⟩], [idT, idT], []⟩

def sbC4 : Skeleton := ⟨[⟨"Hand", none⟩], [idT], []⟩

def nodeC4 : SCSNode := ⟨sbC4, sbC4.boneInfo, sbC4.bonePose, "Arm", idT, []⟩

theorem c4_witness :
    ∃ st, accumulateSkeletons ⟨[some saC4, some sbC4], false, false⟩ [nodeC4]
        [saC4, sbC4] = some st ∧
      (∀ s j, (s = 0 ∧ j < saC4.boneInfo.length) ∨ (s = 1 ∧ j < sbC4.boneInfo.length) →
        ∃ e ∈ st.trace, e.si = s ∧ e.bi = j) ∧
      (∀ e1 ∈ st.trace, ∀ e2 ∈ st.trace,
        (e1.pathKey = e2.pathKey ↔
          mergedChainSpec saC4 sbC4 1 e1.si e1.bi =
            mergedChainSpec saC4 sbC4 1 e2.si e2.bi)) :=
  c4_pathkey_iff_chains saC4 sbC4 nodeC4 "Arm" 1 false
    (wfCheck_sound saC4 (by decide)) (wfCheck_sound sbC4 (by decide))
    rfl rfl (by decide) (by decide)

/-! ## Claim C1 -/

/-- C1 counterexample: a merged hierarchy in which TWO bones carry parent
path key `hash(0,0)` (two root candidates). The claim says `PopulateSkeleton`
must fail and produce no skeleton; instead it emits a skeleton made of the
first candidate (the commented-out `ensure` at cpp 79). -/
theorem c1_counterexample :
    mapFind? twoRootHierarchy.pathHashToBoneNames rootParentHash = some ["A", "B"] ∧
    twoRootHierarchy.PopulateSkeleton 2 = some [⟨"A", none, idT⟩] := by
  constructor <;> rfl

/-- C1 (amended): `PopulateSkeleton` crashes (failed `FindChecked`, no
diagnostic) when no bone has parent path key `hash(0,0)`; whenever it emits
a bone list, at least one root candidate exists and the FIRST-inserted
candidate becomes the emitted root — two or more candidates do not make it
fail. -/
theorem c1_amended (h : FMergedBoneHierarchy) (fuel : Nat) :
    (mapFind? h.pathHashToBoneNames rootParentHash = none →
      h.PopulateSkeleton fuel = none) ∧
    (∀ l, h.PopulateSkeleton fuel = some l →
      ∃ rootName rest pose,
        mapFind? h.pathHashToBoneNames rootParentHash = some (rootName :: rest) ∧
        l.head? = some ⟨rootName, none, pose⟩) := by
  constructor
  · intro hnone
    unfold FMergedBoneHierarchy.PopulateSkeleton
    rw [hnone]
  · intro l hp
    obtain ⟨r, rest, pose, h1, _, h3, _⟩ := populateSkeleton_head h fuel l hp
    exact ⟨r, rest, pose, h1, h3⟩

/-- Witness for C1 (amended) at concrete inputs: the empty hierarchy crashes,
and the two-root hierarchy emits its first-inserted candidate. -/
theorem c1_amended_witness :
    FMergedBoneHierarchy.empty.PopulateSkeleton 2 = none ∧
    (∃ rootName rest pose,
      mapFind? twoRootHierarchy.pathHashToBoneNames rootParentHash =
        some (rootName :: rest) ∧
      ([⟨"A", none, idT⟩] : List EmittedBone).head? =
        some ⟨rootName, none, pose⟩) :=
  ⟨(c1_amended .empty 2).1 rfl, (c1_amended twoRootHierarchy 2).2 _ rfl⟩

/-! ## Claim C5 -/

/-- C5: in every bone list emitted by `PopulateSkeleton` (root first, then
recursive child emission), each bone recorded with a parent index points to a
strictly earlier position of the list, i.e. its parent was emitted before it. -/
theorem c5_parents_emitted_earlier (h : FMergedBoneHierarchy) (fuel : Nat)
    (l : List EmittedBone) (hp : h.PopulateSkeleton fuel = some l) :
    ∀ k (hk : k < l.length) pi, (l.get ⟨k, hk⟩).parentIndex = some pi → pi < k := by
  obtain ⟨_, _, _, _, _, _, hpbc⟩ := populateSkeleton_head h fuel l hp
  exact hpbc

/-- Witness for C5 on a concrete two-bone chain: the child is emitted at
position 1 with parent index 0. -/
theorem c5_witness :
    chainHierarchy.PopulateSkeleton 10 =
      some [⟨"Root", none, idT⟩, ⟨"Child", some 0, idT⟩] ∧ 0 < 1 :=
  ⟨rfl, c5_parents_emitted_earlier chainHierarchy 10 _ rfl 1 (by decide) 0 rfl⟩

/-! ## Claim C3 -/

/-- C3 counterexample: an input list holding exactly ONE valid (non-null)
skeleton. The claim says the merge must abort with no result; instead
`MergeSkeletons` only rejects an empty deduplicated list (cpp 813-817) and
happily merges the single source into a generated skeleton. -/
theorem c3_counterexample :
    (([some oneBoneSkeleton] : List (Option Skeleton)).filterMap id).length = 1 ∧
    MergeSkeletons ⟨[some oneBoneSkeleton], false, false⟩ [] 2 =
      .merged [⟨"Root/1", none, idT⟩] [] := by
  constructor
  · rfl
  · rfl

/-- C3 (amended): the merge aborts before any work with no result when the
deduplicated source list is empty, or when the (all dereferenced) sources
carry zero bones in total; a single valid source is not rejected. -/
theorem c3_amended (params : SkeletonMergeParams) (nodes : List SCSNode) (fuel : Nat) :
    (addUniqueList params.skeletonsToMerge = [] →
      MergeSkeletons params nodes fuel = .noResult) ∧
    (∀ skels, extractAll (addUniqueList params.skeletonsToMerge) = some skels →
      (skels.map (fun s => s.boneInfo.length)).sum = 0 →
      MergeSkeletons params nodes fuel = .noResult) := by
  constructor
  · intro hempty
    unfold MergeSkeletons
    rw [hempty]
    simp
  · intro skels hex hsum
    unfold MergeSkeletons
    by_cases hlen : (addUniqueList params.skeletonsToMerge).length = 0
    · simp [hlen]
    · simp only [hlen, if_neg, if_false]
      rw [hex]
      simp [hsum]

/-- Witness for C3 (amended): the empty input list yields no result, and a
two-empty-skeleton input with zero total bones yields no result. -/
theorem c3_amended_witness :
    MergeSkeletons ⟨[], false, false⟩ [] 2 = .noResult ∧
    MergeSkeletons ⟨[some ⟨[], [], []⟩], false, false⟩ [] 2 = .noResult :=
  ⟨(c3_amended ⟨[], false, false⟩ [] 2).1 rfl,
   (c3_amended ⟨[some ⟨[], [], []⟩], false, false⟩ [] 2).2 [⟨[], [], []⟩] rfl rfl⟩

/-! ## Claim C9 -/

/-- C9 counterexample: merging a list holding the same one-bone skeleton
twice (no attachment re-homing). The claim says the output bone names equal
the source's; instead every bone name receives the `"/1"` path suffix
(cpp 912), so the output names are `["Root/1"]`, not `["Root"]`. -/
theorem c9_counterexample :
    MergeSkeletons ⟨[some oneBoneSkeleton, some oneBoneSkeleton], false, false⟩ [] 10 =
      .merged [⟨"Root/1", none, idT⟩] [] ∧
    oneBoneSkeleton.boneInfo.map (fun b => b.name) = ["Root"] ∧
    (["Root/1"] : List String) ≠ ["Root"] := by
  refine ⟨rfl, rfl, by decide⟩

/-! ## Claim C2 -/

/-- Third source used to show that processing continues after an
incompatible source. -/
def thirdSkel : Skeleton := ⟨[⟨"R3", none⟩], [idT], []⟩

/-- Scene node grafting `thirdSkel` under bone `Root`. -/
def node3 : SCSNode := ⟨thirdSkel, thirdSkel.boneInfo, thirdSkel.bonePose, "Root", idT, []⟩

/-- C2 counterexample: three sources under `check_compatibility`; source 1
(`otherPoseSkeleton`, grafted under `Root`) has a bone chain hash mismatch,
while sources 0 and 2 are fine (source 2 is even processed afterwards, as its
trace entry shows). The claim says the merge fails only if no usable source
remains; instead the never-reset failure flag makes the whole merge return no
skeleton (cpp 1041-1045). -/
theorem c2_counterexample :
    (accumulateSkeletons
        ⟨[some oneBoneSkeleton, some otherPoseSkeleton, some thirdSkel], true, false⟩
        [graftNode, node3] [oneBoneSkeleton, otherPoseSkeleton, thirdSkel]).map
      (fun st => (st.bMergeSkeletonsFailed, st.trace.map (fun e => e.si))) =
      some (true, [0, 2]) ∧
    MergeSkeletons
      ⟨[some oneBoneSkeleton, some otherPoseSkeleton, some thirdSkel], true, false⟩
      [graftNode, node3] 10 = .noResult := by
  exact ⟨rfl, rfl⟩

/-- C2 (amended): under `check_compatibility`, a source whose bone chain hash
mismatches a previously recorded one has its remaining bone contributions
skipped and later sources are still processed — but the failure flag is never
reset, so the overall merge returns no skeleton whenever at least one source
was incompatible, even when usable sources remain. -/
theorem c2_amended (params : SkeletonMergeParams) (nodes : List SCSNode)
    (fuel : Nat) (skels : List Skeleton) (st : AccumState)
    (hex : extractAll (addUniqueList params.skeletonsToMerge) = some skels)
    (hacc : accumulateSkeletons params nodes skels = some st)
    (hfail : st.bMergeSkeletonsFailed = true) :
    MergeSkeletons params nodes fuel = .noResult := by
  unfold MergeSkeletons
  by_cases hlen : (addUniqueList params.skeletonsToMerge).length = 0
  · simp [hlen]
  · simp only [hlen, if_false]
    rw [hex]
    by_cases hsum : (skels.map (fun s => s.boneInfo.length)).sum = 0
    · simp [hsum]
    · simp only [hsum, if_false]
      rw [hacc]
      simp [hfail]

/-- Witness for C2 (amended) at the concrete three-source scenario. -/
theorem c2_amended_witness :
    MergeSkeletons
      ⟨[some oneBoneSkeleton, some otherPoseSkeleton, some thirdSkel], true, false⟩
      [graftNode, node3] 10 = .noResult :=
  c2_amended _ [graftNode, node3] 10 [oneBoneSkeleton, otherPoseSkeleton, thirdSkel]
    _ rfl rfl rfl

/-! ## Claim C7 -/

/-- First source's socket, declared on pair `("S", "B")`. -/
def sockL : Socket := ⟨"S", "B", ⟨1, 0, 0⟩, ⟨0, 0, 0⟩, ⟨1, 1, 1⟩, false⟩

/-- Second source's socket with the same `(name, bone)` pair but different
relative location. -/
def sockR : Socket := ⟨"S", "B", ⟨2, 0, 0⟩, ⟨0, 0, 0⟩, ⟨1, 1, 1⟩, false⟩

def skSockA : Skeleton := ⟨[⟨"Root", none⟩], [idT], [sockL]⟩

def skSockB : Skeleton := ⟨[⟨"R2", none⟩], [idT], [sockR]⟩

/-- Scene node grafting `skSockB` under bone `Root`. -/
def nodeC7 : SCSNode := ⟨skSockB, skSockB.boneInfo, skSockB.bonePose, "Root", idT, []⟩

/-- C7 counterexample: both sources declare a socket with the identical
`(socket_name, owning_bone_name)` pair. Exactly one socket survives, but it
is the LAST occurrence in merge order (`TMap::Add` replaces, cpp 996), not
the first as claimed: the output socket carries `sockR`'s data, and
`sockR ≠ sockL`. -/
theorem c7_counterexample :
    MergeSkeletons ⟨[some skSockA, some skSockB], false, true⟩ [nodeC7] 10 =
      .merged [⟨"Root/1", none, idT⟩, ⟨"R2/1", some 0, idT⟩] [sockR] ∧
    sockR ≠ sockL := by
  refine ⟨rfl, by decide⟩

/-- The last socket of the list whose `(name, bone)` key hash matches `k`
(`none` when no socket has that key). -/
def lastSocketWithKey (ss : List Socket) (k : HashVal) : Option Socket :=
  ss.foldl (fun acc s => if socketKey s = k then some s else acc) none

theorem lastwins_foldl (k : HashVal) (ss : List Socket) (init : Option Socket) :
    ss.foldl (fun acc s => if socketKey s = k then some s else acc) init =
      match ss.foldl (fun acc s => if socketKey s = k then some s else acc) none with
      | some t => some t
      | none => init := by
  induction ss generalizing init with
  | nil => simp
  | cons s rest ih =>
    simp only [List.foldl_cons]
    by_cases h : socketKey s = k
    · rw [if_pos h, if_pos h, ih (some s)]
      cases hf : rest.foldl (fun acc s => if socketKey s = k then some s else acc) none <;>
        simp
    · rw [if_neg h, if_neg h, ih init]

theorem mapFind?_collectSockets (ss : List Socket) :
    ∀ (m : List (HashVal × Socket)) (k : HashVal),
      mapFind? (collectSockets m ss) k =
        match lastSocketWithKey ss k with
        | some t => some t
        | none => mapFind? m k := by
  induction ss with
  | nil =>
    intro m k
    simp [collectSockets, lastSocketWithKey]
  | cons s rest ih =>
    intro m k
    show mapFind? (collectSockets (mapAdd m (socketKey s) s) rest) k = _
    rw [ih]
    unfold lastSocketWithKey
    simp only [List.foldl_cons]
    by_cases h : socketKey s = k
    · rw [if_pos h, lastwins_foldl k rest (some s)]
      cases hf : rest.foldl (fun acc x => if socketKey x = k then some x else acc) none with
      | some t => simp [lastSocketWithKey, hf]
      | none => simp [lastSocketWithKey, hf, mapFind?_mapAdd, h]
    · rw [if_neg h]
      cases hf : rest.foldl (fun acc x => if socketKey x = k then some x else acc) none with
      | some t => simp [lastSocketWithKey, hf]
      | none => simp [lastSocketWithKey, hf, mapFind?_mapAdd, h]

theorem lastSocketWithKey_eq_none (ss : List Socket) (k : HashVal)
    (h : ∀ x ∈ ss, socketKey x ≠ k) : lastSocketWithKey ss k = none := by
  induction ss with
  | nil => rfl
  | cons s rest ih =>
    unfold lastSocketWithKey
    simp only [List.foldl_cons, if_neg (h s (by simp))]
    exact ih (fun x hx => h x (by simp [hx]))

theorem lastSocketWithKey_mem (ss : List Socket) (k : HashVal)
    (hs : ∃ s ∈ ss, socketKey s = k) :
    ∃ t, lastSocketWithKey ss k = some t ∧ socketKey t = k ∧ t ∈ ss := by
  induction ss with
  | nil => simp at hs
  | cons s rest ih =>
    by_cases hr : ∃ x ∈ rest, socketKey x = k
    · obtain ⟨t, ht1, ht2, ht3⟩ := ih hr
      refine ⟨t, ?_, ht2, by simp [ht3]⟩
      unfold lastSocketWithKey at ht1 ⊢
      simp only [List.foldl_cons]
      rw [lastwins_foldl, ht1]
    · have hsk : socketKey s = k := by
        obtain ⟨x, hx1, hx2⟩ := hs
        rcases List.mem_cons.mp hx1 with h1 | h1
        · rw [← h1]; exact hx2
        · exact absurd ⟨x, h1, hx2⟩ hr
      refine ⟨s, ?_, hsk, by simp⟩
      unfold lastSocketWithKey
      simp only [List.foldl_cons, if_pos hsk]
      rw [lastwins_foldl]
      have : lastSocketWithKey rest k = none :=
        lastSocketWithKey_eq_none rest k (by
          intro x hx hxk
          exact hr ⟨x, hx, hxk⟩)
      unfold lastSocketWithKey at this
      rw [this]

theorem mapAdd_keys_nodup {α β : Type} [DecidableEq α] (m : List (α × β)) (k : α) (v : β)
    (h : (m.map Prod.fst).Nodup) : ((mapAdd m k v).map Prod.fst).Nodup := by
  induction m with
  | nil => simp [mapAdd]
  | cons p rest ih =>
    obtain ⟨pk, pv⟩ := p
    by_cases hk : pk = k
    · simpa [mapAdd, hk] using h
    · simp only [mapAdd, if_neg hk, List.map_cons, List.nodup_cons] at h ⊢
      refine ⟨?_, ih h.2⟩
      intro hmem
      have : pk ∈ rest.map Prod.fst ∨ pk = k := by
        clear h ih
        induction rest with
        | nil => simp [mapAdd] at hmem; exact Or.inr hmem
        | cons q tail ihq =>
          obtain ⟨qk, qv⟩ := q
          by_cases hqk : qk = k
          · simp [mapAdd, hqk] at hmem
            rcases hmem with h1 | h1
            · exact Or.inl (by simp [h1, hqk])
            · exact Or.inl (by simp [h1])
          · simp only [mapAdd, if_neg hqk, List.map_cons, List.mem_cons] at hmem
            rcases hmem with h1 | h1
            · exact Or.inl (by simp [h1])
            · rcases ihq h1 with h2 | h2
              · exact Or.inl (by simp [h2])
              · exact Or.inr h2
      rcases this with h1 | h1
      · exact h.1 h1
      · exact hk h1

theorem collectSockets_keys_nodup (ss : List Socket) (m : List (HashVal × Socket))
    (h : (m.map Prod.fst).Nodup) : ((collectSockets m ss).map Prod.fst).Nodup := by
  induction ss generalizing m with
  | nil => exact h
  | cons s rest ih =>
    show ((collectSockets (mapAdd m (socketKey s) s) rest).map Prod.fst).Nodup
    exact ih _ (mapAdd_keys_nodup m _ s h)

/-- C7 (amended): sockets are deduplicated by `hash(socket_name,
owning_bone_name)`: the accumulated socket map has pairwise-distinct keys
(exactly one socket per pair); the socket kept for a key is the LAST
occurrence in merge order, not the first; and `AddSockets` copies every field
of the kept socket unchanged into the output skeleton. -/
theorem c7_amended (ss : List Socket) :
    (∀ k, mapFind? (collectSockets [] ss) k =
      match lastSocketWithKey ss k with
      | some t => some t
      | none => none) ∧
    ((collectSockets [] ss).map Prod.fst).Nodup ∧
    (∀ k, (∃ s ∈ ss, socketKey s = k) →
      ∃ t, mapFind? (collectSockets [] ss) k = some t ∧ socketKey t = k ∧ t ∈ ss) ∧
    (∀ s : Socket, addSocketsCopy s = s) := by
  refine ⟨?_, collectSockets_keys_nodup ss [] (by simp), ?_, fun s => rfl⟩
  · intro k
    rw [mapFind?_collectSockets ss [] k]
    cases lastSocketWithKey ss k <;> simp [mapFind?]
  · intro k hk
    obtain ⟨t, ht1, ht2, ht3⟩ := lastSocketWithKey_mem ss k hk
    refine ⟨t, ?_, ht2, ht3⟩
    rw [mapFind?_collectSockets ss [] k, ht1]

/-- Witness for C7 (amended) at the concrete two-socket scenario: the map
keeps exactly the second socket. -/
theorem c7_amended_witness :
    ∃ t, mapFind? (collectSockets [] [sockL, sockR]) (socketKey sockL) = some t ∧
      socketKey t = socketKey sockL ∧ t ∈ [sockL, sockR] :=
  (c7_amended [sockL, sockR]).2.2.1 (socketKey sockL) ⟨sockL, by simp, rfl⟩

/-! ## Claim C6 -/

/-- Modelled from the spec: the transform the spec asserts for a grafted
secondary root — the component's relative placement transform applied to the
attach-target bone's rest transform (location and rotation), with the scale
kept from the bone's own source pose. -/
def specGraftRootTransform (tRel tParent ownPose : Transform) : Transform :=
  { ownPose with
    location := transformPosition tRel tParent.location
    rotation := transformRotation tRel tParent.rotation }

/-- Primary skeleton offering the attach-target bone `Socket` at rest
location `(2,0,0)`. -/
def saC6 : Skeleton := ⟨[⟨"Socket", none⟩], [locT 2 0 0], []⟩

/-- Secondary one-bone skeleton `R` with source reference pose `(5,5,5)`. -/
def sbC6 : Skeleton := ⟨[⟨"R", none⟩], [locT 5 5 5], []⟩

/-- Scene node grafting `sbC6` under `Socket` with relative placement
`(1,0,0)`; its mesh reference skeleton uses the plain bone name `R`, so the
`FindBoneIndex(Bone_Name)` lookup of the suffixed name `R/1` misses. -/
def nodeC6dead : SCSNode := ⟨sbC6, [⟨"R", none⟩], [locT 7 0 0], "Socket", locT 1 0 0, []⟩

/-- Same graft, but the mesh reference skeleton's bone is named `R/1`, so the
suffixed-name lookup hits and the rebasing branch runs. -/
def nodeC6live : SCSNode := ⟨sbC6, [⟨"R/1", none⟩], [locT 7 0 0], "Socket", locT 1 0 0, []⟩

/-- C6 counterexample: grafting `R` (own pose location `(5,5,5)`) under
`Socket` (rest location `(2,0,0)`) with relative placement `(1,0,0)`. The
spec predicts merged-root location `(3,0,0)` (`T_rel` composed with the
attach-target's rest transform). Instead: when the mesh reference skeleton
does not contain the `"/1"`-suffixed name (the ordinary case) the root keeps
its own source pose `(5,5,5)` — no composition at all; and even when the
suffixed lookup hits, the code composes `T_rel` with the mesh's OWN root rest
pose (`GetRawRefBonePose()[0]`, location `(7,0,0)` giving `(8,0,0)`), not
with the attach-target bone's transform (cpp 957-971). -/
theorem c6_counterexample :
    (MergeSkeletons ⟨[some saC6, some sbC6], false, false⟩ [nodeC6dead] 10 =
      .merged [⟨"Socket/1", none, locT 2 0 0⟩, ⟨"R/1", some 0, locT 5 5 5⟩] [] ∧
      locT 5 5 5 ≠ specGraftRootTransform (locT 1 0 0) (locT 2 0 0) (locT 5 5 5)) ∧
    (MergeSkeletons ⟨[some saC6, some sbC6], false, false⟩ [nodeC6live] 10 =
      .merged [⟨"Socket/1", none, locT 2 0 0⟩, ⟨"R/1", some 0, locT 8 0 0⟩] [] ∧
      locT 8 0 0 ≠ specGraftRootTransform (locT 1 0 0) (locT 2 0 0) (locT 5 5 5)) :=
  ⟨⟨rfl, by decide⟩, ⟨rfl, by decide⟩⟩

/-- C6 (amended): in a two-source graft merge, the pose recorded for each
secondary bone is `graftTransformSpec`: the bone's own source reference pose,
unless the `"/1"`-suffixed name occurs in the scene node's mesh reference
skeleton, in which case the root is rebased by the component's relative
transform applied to the mesh's own root rest pose (location/rotation only).
In particular, whenever the suffixed root name is absent from the mesh
skeleton, the grafted root's recorded pose is exactly its own source
reference pose — the attach-target bone's rest transform never enters. -/
theorem c6_graft_pose (Sa Sb : Skeleton) (node : SCSNode) (t : String)
    (it : Nat)
    (hwfA : WellFormedSkeleton Sa) (hwfB : WellFormedSkeleton Sb)
    (hnodeskel : node.skeleton = Sb) (hattach : node.attachToName = t)
    (hit : it < Sa.boneInfo.length) (hitname : nameOf Sa it = t)
    (hroot : 0 < Sb.boneInfo.length) :
    ∃ st, accumulateSkeletons ⟨[some Sa, some Sb], false, false⟩ [node] [Sa, Sb] =
        some st ∧
      (∀ j (hj : j < Sb.boneInfo.length),
        mapFind? st.hierarchy.boneNamePose (suffName Sb j) =
          some (graftTransformSpec node (Sb.boneInfo.get ⟨j, hj⟩) j (suffName Sb j)
            (poseOf Sb j))) ∧
      (findBoneIndex node.meshBoneInfo (suffName Sb 0) = none →
        mapFind? st.hierarchy.boneNamePose (suffName Sb 0) = some (poseOf Sb 0)) := by
  obtain ⟨st, h1, _, h3⟩ := graftAccum_characterize Sa Sb node t it false
    hwfA hwfB hnodeskel hattach hit hitname
  refine ⟨st, h1, h3, ?_⟩
  intro hnone
  rw [h3 0 hroot]
  unfold graftTransformSpec
  rw [hnone]

/-- Witness for C6 (amended) at the concrete dead-branch graft. -/
theorem c6_witness :
    ∃ st, accumulateSkeletons ⟨[some saC6, some sbC6], false, false⟩ [nodeC6dead]
        [saC6, sbC6] = some st ∧
      (∀ j (hj : j < sbC6.boneInfo.length),
        mapFind? st.hierarchy.boneNamePose (suffName sbC6 j) =
          some (graftTransformSpec nodeC6dead (sbC6.boneInfo.get ⟨j, hj⟩) j
            (suffName sbC6 j) (poseOf sbC6 j))) ∧
      (findBoneIndex nodeC6dead.meshBoneInfo (suffName sbC6 0) = none →
        mapFind? st.hierarchy.boneNamePose (suffName sbC6 0) =
          some (poseOf sbC6 0)) :=
  c6_graft_pose saC6 sbC6 nodeC6dead "Socket" 0
    (wfCheck_sound saC6 (by decide)) (wfCheck_sound sbC6 (by decide))
    rfl rfl (by decide) (by decide) (by decide)

/-- Unfolding equations for the fuel-recursive loops, stated on `+ 1` so
that `simp` can step concrete fuel literals. -/
theorem processBonesFrom_zero (params : SkeletonMergeParams) (nodes : List SCSNode)
    (si : Nat) (skel : Skeleton) (bi : Nat) (conflictive : Bool)
    (boneNode : Option SCSNode) (st : AccumState) :
    processBonesFrom params nodes si skel 0 bi conflictive boneNode st = some st := rfl

theorem processBonesFrom_succ (params : SkeletonMergeParams) (nodes : List SCSNode)
    (si : Nat) (skel : Skeleton) (rem bi : Nat) (conflictive : Bool)
    (boneNode : Option SCSNode) (st : AccumState) :
    processBonesFrom params nodes si skel (rem + 1) bi conflictive boneNode st =
      if hbi : bi < skel.boneInfo.length then
        match boneStep params nodes si skel bi conflictive boneNode st
            (skel.boneInfo.get ⟨bi, hbi⟩) with
        | none => none
        | some (conflictive', boneNode', st2, brk) =>
          if brk then some st2
          else processBonesFrom params nodes si skel rem (bi + 1) conflictive'
            boneNode' st2
      else some st := rfl

theorem emitGo_zero (h : FMergedBoneHierarchy) (acc : List EmittedBone)
    (w : EmitWork) : emitGo h 0 acc w = none := rfl

theorem emitGo_descend (h : FMergedBoneHierarchy) (f : Nat)
    (acc : List EmittedBone) (parentBoneName : String) :
    emitGo h (f + 1) acc (.descend parentBoneName) =
      match mapFind? h.pathToBoneNames parentBoneName with
      | none => none
      | some pathHash =>
        match mapFind? h.pathHashToBoneNames pathHash with
        | none => some acc
        | some childNames => emitGo h f acc (.children parentBoneName childNames) :=
  rfl

theorem emitGo_children_nil (h : FMergedBoneHierarchy) (f : Nat)
    (acc : List EmittedBone) (parentBoneName : String) :
    emitGo h (f + 1) acc (.children parentBoneName []) = some acc := rfl

theorem emitGo_children_cons (h : FMergedBoneHierarchy) (f : Nat)
    (acc : List EmittedBone) (parentBoneName : String) (c : String)
    (rest : List String) :
    emitGo h (f + 1) acc (.children parentBoneName (c :: rest)) =
      match mapFind? h.boneNamePose c with
      | none => none
      | some pose =>
        let acc1 := acc ++
          [⟨c, List.findIdx? (fun e => e.name = parentBoneName) acc, pose⟩]
        match emitGo h f acc1 (.descend c) with
        | none => none
        | some acc2 => emitGo h f acc2 (.children parentBoneName rest) := rfl

/-! ## Claim C8 -/

/-- C8: in the compatibility-checked bone step (cpp 921-944), when the bone
already has an entry under the same stored name whose recorded bone chain
hash equals the newly computed one but the recorded reference pose differs
from this source's pose, the step neither fails nor breaks the loop: the
failure flag stays down, exactly one warning is counted (cpp 939), the later
source's pose overwrites the stored one in `BoneNamesToBonePose` (cpp 944,
`TMap::Add` replaces), and `AddBone` (cpp 58-69) overwrites the pose recorded
in the merged hierarchy for that bone name with the later source's (adjusted)
transform. -/
theorem c8_pose_conflict_last_wins (params : SkeletonMergeParams) (si bi : Nat)
    (boneNode' : Option SCSNode) (st : AccumState) (bone : MeshBoneInfo)
    (bonePose oldPose tr : Transform) (parentName : String) (parentHash : HashVal)
    (hc : params.bCheckSkeletonsCompatibility = true)
    (hfailed : st.bMergeSkeletonsFailed = false)
    (hfind : mapFind? st.boneNamesToPathHash (pathAppend bone.name "1") =
      some (.combine ((mapFind? st.boneNamesToPathHash parentName).getD .zero)
        parentHash))
    (hpose : mapFind? st.boneNamesToBonePose (pathAppend bone.name "1") =
      some oldPose)
    (hne : oldPose ≠ bonePose)
    (htr : (if si > 0 then
        computeMergedTransform boneNode' bone bi (pathAppend bone.name "1") bonePose
      else some bonePose) = some tr) :
    ∃ st2, boneStepTail params si bi false boneNode' st bone bonePose parentName
        parentHash = some (true, boneNode', st2, false) ∧
      st2.bMergeSkeletonsFailed = false ∧
      st2.warnings = st.warnings + 1 ∧
      mapFind? st2.boneNamesToBonePose (pathAppend bone.name "1") = some bonePose ∧
      mapFind? st2.hierarchy.boneNamePose (pathAppend bone.name "1") = some tr := by
  unfold boneStepTail
  rw [hc]
  simp only [if_true, hfind]
  rw [if_neg (fun hh => hh rfl)]
  rw [if_pos (show ¬false = true by simp)]
  rw [hpose]
  dsimp only
  rw [if_pos hne]
  dsimp only
  rw [if_neg (show ¬false = true by simp)]
  rw [htr]
  dsimp only
  refine ⟨_, rfl, hfailed, rfl, ?_, ?_⟩
  · show mapFind? (mapAdd st.boneNamesToBonePose (pathAppend bone.name "1")
        bonePose) (pathAppend bone.name "1") = some bonePose
    rw [mapFind?_mapAdd, if_pos rfl]
  · show mapFind? (mapAdd st.hierarchy.boneNamePose (pathAppend bone.name "1") tr)
      (pathAppend bone.name "1") = some tr
    rw [mapFind?_mapAdd, if_pos rfl]

/-- Pre-state for the C8 witness: bone `X/1` already recorded with chain hash
`HashCombine(0,0)` and pose `idT`. -/
def stW : AccumState :=
  ⟨[("X/1", rootParentHash)], [("X/1", idT)],
    ⟨[("X/1", idT)], [], []⟩, [], false, 0, []⟩

/-- Witness for C8: a second source contributes `X` at the same chain hash
with pose `(1,2,3)`; the step succeeds, counts one warning and stores the
later pose. -/
theorem c8_witness :
    ∃ st2, boneStepTail ⟨[], true, false⟩ 0 0 false none stW ⟨"X", none⟩
        (locT 1 2 3) "P" .zero = some (true, none, st2, false) ∧
      st2.bMergeSkeletonsFailed = false ∧
      st2.warnings = stW.warnings + 1 ∧
      mapFind? st2.boneNamesToBonePose (pathAppend "X" "1") = some (locT 1 2 3) ∧
      mapFind? st2.hierarchy.boneNamePose (pathAppend "X" "1") =
        some (locT 1 2 3) :=
  c8_pose_conflict_last_wins ⟨[], true, false⟩ 0 0 none stW ⟨"X", none⟩
    (locT 1 2 3) idT (locT 1 2 3) "P" .zero rfl rfl rfl rfl (by decide) rfl

/-! ## Claim C10 -/

theorem mem_setAdd {α : Type} [DecidableEq α] {s : List α} {a x : α}
    (h : x ∈ setAdd s a) : x ∈ s ∨ x = a := by
  unfold setAdd at h
  by_cases hm : a ∈ s
  · rw [if_pos hm] at h
    exact Or.inl h
  · rw [if_neg hm] at h
    rcases List.mem_append.mp h with h1 | h1
    · exact Or.inl h1
    · exact Or.inr (by simpa using h1)

/-- The predicate `P` holds of every name stored in any child set of the
hierarchy's path-hash map. -/
def HierNames (h : FMergedBoneHierarchy) (P : String → Prop) : Prop :=
  ∀ k l, mapFind? h.pathHashToBoneNames k = some l → ∀ nm ∈ l, P nm

theorem hierNames_addBone (P : String → Prop) (h : FMergedBoneHierarchy)
    (boneName : String) (pose : Transform) (pathHash : HashVal)
    (hst : HierNames h P) (hb : P boneName) :
    HierNames (h.AddBone boneName pose pathHash) P := by
  intro k l hl nm hnm
  have hl' : mapFind? (multiMapAdd h.pathHashToBoneNames pathHash boneName) k =
      some l := hl
  rw [mapFind?_multiMapAdd] at hl'
  by_cases hk : pathHash = k
  · rw [if_pos hk] at hl'
    cases hm : mapFind? h.pathHashToBoneNames pathHash with
    | none =>
      rw [hm] at hl'
      obtain rfl : [boneName] = l := Option.some.inj hl'
      have : nm = boneName := by simpa using hnm
      rw [this]
      exact hb
    | some s =>
      rw [hm] at hl'
      obtain rfl : setAdd s boneName = l := Option.some.inj hl'
      rcases mem_setAdd hnm with h1 | h1
      · exact hst pathHash s hm nm h1
      · rw [h1]
        exact hb
  · rw [if_neg hk] at hl'
    exact hst k l hl' nm hnm

theorem boneStepTail_hierNames (P : String → Prop) (params : SkeletonMergeParams)
    (si bi : Nat) (conflictive : Bool) (boneNode' : Option SCSNode)
    (st : AccumState) (bone : MeshBoneInfo) (bonePose : Transform)
    (parentName : String) (parentHash : HashVal) (c' : Bool)
    (bn' : Option SCSNode) (st2 : AccumState) (brk : Bool)
    (h : boneStepTail params si bi conflictive boneNode' st bone bonePose
      parentName parentHash = some (c', bn', st2, brk))
    (hst : HierNames st.hierarchy P) (hb : P (pathAppend bone.name "1")) :
    HierNames st2.hierarchy P := by
  unfold boneStepTail at h
  dsimp only at h
  split at h
  · cases h
  · rename_i mismatch conflictive2 warnings2 heq
    split at h
    · cases h
      exact hst
    · split at h
      · cases h
      · cases h
        exact hierNames_addBone P st.hierarchy (pathAppend bone.name "1") _ _ hst hb

theorem boneStep_hierNames (P : String → Prop) (params : SkeletonMergeParams)
    (nodes : List SCSNode) (si : Nat) (skel : Skeleton) (bi : Nat)
    (conflictive : Bool) (boneNode : Option SCSNode) (st : AccumState)
    (bone : MeshBoneInfo) (c' : Bool) (bn' : Option SCSNode) (st2 : AccumState)
    (brk : Bool)
    (h : boneStep params nodes si skel bi conflictive boneNode st bone =
      some (c', bn', st2, brk))
    (hst : HierNames st.hierarchy P) (hb : P (pathAppend bone.name "1")) :
    HierNames st2.hierarchy P := by
  unfold boneStep at h
  dsimp only at h
  split at h
  · cases h
  · split at h
    · cases h
    · split at h
      · cases h
      · exact boneStepTail_hierNames P params si bi conflictive _ st bone _ _ _
          c' bn' st2 brk h hst hb

theorem processBonesFrom_hierNames (P : String → Prop)
    (params : SkeletonMergeParams) (nodes : List SCSNode) (si : Nat)
    (skel : Skeleton)
    (hall : ∀ b ∈ skel.boneInfo, P (pathAppend b.name "1")) :
    ∀ (rem bi : Nat) (conflictive : Bool) (boneNode : Option SCSNode)
      (st st' : AccumState),
      processBonesFrom params nodes si skel rem bi conflictive boneNode st =
        some st' →
      HierNames st.hierarchy P → HierNames st'.hierarchy P := by
  intro rem
  induction rem with
  | zero =>
    intro bi conflictive boneNode st st' h hst
    rw [processBonesFrom_zero] at h
    cases h
    exact hst
  | succ rem ih =>
    intro bi conflictive boneNode st st' h hst
    rw [processBonesFrom_succ] at h
    by_cases hbi : bi < skel.boneInfo.length
    · rw [dif_pos hbi] at h
      cases hbs : boneStep params nodes si skel bi conflictive boneNode st
          (skel.boneInfo.get ⟨bi, hbi⟩) with
      | none => rw [hbs] at h; cases h
      | some q =>
        obtain ⟨c2, bn2, st2, brk⟩ := q
        rw [hbs] at h
        dsimp only at h
        have hst2 : HierNames st2.hierarchy P :=
          boneStep_hierNames P params nodes si skel bi conflictive boneNode st
            _ c2 bn2 st2 brk hbs hst
            (hall _ (List.get_mem _ _ _))
        by_cases hbrk : brk = true
        · rw [if_pos hbrk] at h
          cases h
          exact hst2
        · rw [if_neg hbrk] at h
          exact ih (bi + 1) c2 bn2 st2 st' h hst2
    · rw [dif_neg hbi] at h
      cases h
      exact hst

theorem processSource_hierNames (P : String → Prop)
    (params : SkeletonMergeParams) (nodes : List SCSNode) (si : Nat)
    (skel : Skeleton) (st st' : AccumState)
    (h : processSource params nodes si skel st = some st')
    (hall : ∀ b ∈ skel.boneInfo, P (pathAppend b.name "1"))
    (hst : HierNames st.hierarchy P) : HierNames st'.hierarchy P := by
  unfold processSource at h
  cases hpb : processBonesFrom params nodes si skel skel.boneInfo.length 0 false
      none st with
  | none => rw [hpb] at h; cases h
  | some st1 =>
    rw [hpb] at h
    dsimp only at h
    have hst1 : HierNames st1.hierarchy P :=
      processBonesFrom_hierNames P params nodes si skel hall _ 0 false none st
        st1 hpb hst
    split at h
    · cases h
      exact hst1
    · split at h
      · cases h
        exact hst1
      · cases h
        exact hst1

theorem foldlMerge_none (params : SkeletonMergeParams) (nodes : List SCSNode) :
    ∀ pairs : List (Nat × Skeleton),
      (pairs.foldl
        (fun acc (p : Nat × Skeleton) =>
          match acc with
          | none => none
          | some st => processSource params nodes p.1 p.2 st)
        (none : Option AccumState)) = none := by
  intro pairs
  induction pairs with
  | nil => rfl
  | cons p rest ih => exact ih

theorem accumFold_hierNames (P : String → Prop) (params : SkeletonMergeParams)
    (nodes : List SCSNode) :
    ∀ (pairs : List (Nat × Skeleton)) (st0 st' : AccumState),
      (pairs.foldl
        (fun acc (p : Nat × Skeleton) =>
          match acc with
          | none => none
          | some st => processSource params nodes p.1 p.2 st)
        (some st0)) = some st' →
      (∀ p ∈ pairs, ∀ b ∈ p.2.boneInfo, P (pathAppend b.name "1")) →
      HierNames st0.hierarchy P → HierNames st'.hierarchy P := by
  intro pairs
  induction pairs with
  | nil =>
    intro st0 st' h hall hst
    cases h
    exact hst
  | cons p rest ih =>
    intro st0 st' h hall hst
    show HierNames st'.hierarchy P
    have hstep : (rest.foldl
        (fun acc (q : Nat × Skeleton) =>
          match acc with
          | none => none
          | some st => processSource params nodes q.1 q.2 st)
        (processSource params nodes p.1 p.2 st0)) = some st' := h
    cases hps : processSource params nodes p.1 p.2 st0 with
    | none =>
      rw [hps] at hstep
      rw [foldlMerge_none] at hstep
      cases hstep
    | some st1 =>
      rw [hps] at hstep
      exact ih st1 st' hstep (fun q hq => hall q (List.mem_cons_of_mem p hq))
        (processSource_hierNames P params nodes p.1 p.2 st0 st1 hps
          (hall p (List.mem_cons_self p rest)) hst)

theorem emitGo_names (P : String → Prop) (h : FMergedBoneHierarchy)
    (hmap : HierNames h P) :
    ∀ (fuel : Nat) (acc : List EmittedBone) (w : EmitWork)
      (res : List EmittedBone),
      emitGo h fuel acc w = some res →
      (∀ e ∈ acc, P e.name) →
      (∀ pn cs, w = .children pn cs → ∀ nm ∈ cs, P nm) →
      ∀ e ∈ res, P e.name := by
  intro fuel
  induction fuel with
  | zero =>
    intro acc w res hres
    rw [emitGo_zero] at hres
    cases hres
  | succ f ih =>
    intro acc w res hres hacc hcs
    cases w with
    | descend pn =>
      rw [emitGo_descend] at hres
      cases hf : mapFind? h.pathToBoneNames pn with
      | none => rw [hf] at hres; cases hres
      | some ph =>
        rw [hf] at hres
        dsimp only at hres
        cases hg : mapFind? h.pathHashToBoneNames ph with
        | none =>
          rw [hg] at hres
          cases hres
          exact hacc
        | some childNames =>
          rw [hg] at hres
          dsimp only at hres
          exact ih acc (.children pn childNames) res hres hacc
            (fun pn2 cs2 hw => by
              cases hw
              exact hmap ph childNames hg)
    | children pn cs =>
      cases cs with
      | nil =>
        rw [emitGo_children_nil] at hres
        cases hres
        exact hacc
      | cons c rest =>
        rw [emitGo_children_cons] at hres
        cases hp : mapFind? h.boneNamePose c with
        | none => rw [hp] at hres; cases hres
        | some pose =>
          rw [hp] at hres
          dsimp only at hres
          cases hrec : emitGo h f
              (acc ++ [⟨c, List.findIdx? (fun e => e.name = pn) acc, pose⟩])
              (.descend c) with
          | none => rw [hrec] at hres; cases hres
          | some acc2 =>
            rw [hrec] at hres
            dsimp only at hres
            have hc : P c := hcs pn (c :: rest) rfl c (List.mem_cons_self c rest)
            have hacc1 : ∀ e ∈ acc ++
                [(⟨c, List.findIdx? (fun e => e.name = pn) acc, pose⟩ :
                  EmittedBone)], P e.name := by
              intro e he
              rcases List.mem_append.mp he with h1 | h1
              · exact hacc e h1
              · have : e = ⟨c, List.findIdx? (fun e => e.name = pn) acc, pose⟩ := by
                  simpa using h1
                rw [this]
                exact hc
            have hacc2 : ∀ e ∈ acc2, P e.name :=
              ih _ (.descend c) acc2 hrec hacc1 (fun pn2 cs2 hw => by cases hw)
            exact ih acc2 (.children pn rest) res hres hacc2
              (fun pn2 cs2 hw => by
                cases hw
                exact fun nm hnm => hcs pn (c :: rest) rfl nm
                  (List.mem_cons_of_mem c hnm))

theorem populateSkeleton_names (P : String → Prop) (h : FMergedBoneHierarchy)
    (fuel : Nat) (l : List EmittedBone) (hp : h.PopulateSkeleton fuel = some l)
    (hmap : HierNames h P) : ∀ e ∈ l, P e.name := by
  unfold FMergedBoneHierarchy.PopulateSkeleton at hp
  cases hr : mapFind? h.pathHashToBoneNames rootParentHash with
  | none => rw [hr] at hp; cases hp
  | some childs =>
    rw [hr] at hp
    dsimp only at hp
    cases childs with
    | nil => cases hp
    | cons rootName rest =>
      dsimp only at hp
      cases hpose : mapFind? h.boneNamePose rootName with
      | none => rw [hpose] at hp; cases hp
      | some pose =>
        rw [hpose] at hp
        dsimp only at hp
        have hroot : P rootName :=
          hmap rootParentHash (rootName :: rest) hr rootName
            (List.mem_cons_self rootName rest)
        exact emitGo_names P h hmap fuel _ (.descend rootName) l hp
          (by
            intro e he
            have : e = ⟨rootName, none, pose⟩ := by simpa using he
            rw [this]
            exact hroot)
          (fun pn2 cs2 hw => by cases hw)

theorem addUniqueList_subset {α : Type} [DecidableEq α] (l : List α) :
    ∀ x ∈ addUniqueList l, x ∈ l := by
  have aux : ∀ (l : List α) (acc : List α) (x : α),
      x ∈ l.foldl (fun acc a => if a ∈ acc then acc else acc ++ [a]) acc →
      x ∈ acc ∨ x ∈ l := by
    intro l
    induction l with
    | nil =>
      intro acc x hx
      exact Or.inl hx
    | cons a rest ih =>
      intro acc x hx
      have hx' : x ∈ rest.foldl (fun acc a => if a ∈ acc then acc else acc ++ [a])
          (if a ∈ acc then acc else acc ++ [a]) := hx
      rcases ih _ x hx' with h1 | h1
      · by_cases ha : a ∈ acc
        · rw [if_pos ha] at h1
          exact Or.inl h1
        · rw [if_neg ha] at h1
          rcases List.mem_append.mp h1 with h2 | h2
          · exact Or.inl h2
          · have hxa : x = a := by simpa using h2
            rw [hxa]
            exact Or.inr (List.mem_cons_self a rest)
      · exact Or.inr (List.mem_cons_of_mem a h1)
  intro x hx
  rcases aux l [] x hx with h1 | h1
  · cases h1
  · exact h1

theorem extractAll_mem : ∀ (l : List (Option Skeleton)) (skels : List Skeleton),
    extractAll l = some skels → ∀ S ∈ skels, some S ∈ l := by
  intro l
  induction l with
  | nil =>
    intro skels h S hS
    cases h
    cases hS
  | cons o rest ih =>
    intro skels h S hS
    cases o with
    | none => cases h
    | some s =>
      unfold extractAll at h
      cases hr : extractAll rest with
      | none => rw [hr] at h; cases h
      | some r =>
        rw [hr] at h
        cases h
        rcases (List.mem_cons).mp hS with h1 | h1
        · rw [h1]
          exact List.mem_cons_self _ _
        · exact List.mem_cons_of_mem _ (ih r hr S h1)

/-- C10: every bone emitted into a merged output skeleton carries the
`"/1"`-suffixed name of some source bone (`Bone.Name.ToString() / "1"`,
cpp 912, propagated through `AddBone` at cpp 959/976/981 and unchanged by the
emission recursion), and that name always differs from the source bone's own
name — no output bone keeps its original source name. -/
theorem c10_output_names_suffixed (params : SkeletonMergeParams)
    (nodes : List SCSNode) (fuel : Nat) (bones : List EmittedBone)
    (sockets : List Socket)
    (h : MergeSkeletons params nodes fuel = .merged bones sockets) :
    ∀ e ∈ bones, ∃ S b, some S ∈ params.skeletonsToMerge ∧ b ∈ S.boneInfo ∧
      e.name = pathAppend b.name "1" ∧ e.name ≠ b.name := by
  unfold MergeSkeletons at h
  dsimp only at h
  split at h
  · cases h
  · cases hex : extractAll (addUniqueList params.skeletonsToMerge) with
    | none => rw [hex] at h; cases h
    | some skels =>
      rw [hex] at h
      dsimp only at h
      split at h
      · cases h
      · cases hacc : accumulateSkeletons params nodes skels with
        | none => rw [hacc] at h; cases h
        | some st =>
          rw [hacc] at h
          dsimp only at h
          split at h
          · cases h
          · cases hpop : st.hierarchy.PopulateSkeleton fuel with
            | none => rw [hpop] at h; cases h
            | some bs =>
              rw [hpop] at h
              dsimp only at h
              cases h
              have hnames : HierNames st.hierarchy
                  (fun nm => ∃ S b, some S ∈ params.skeletonsToMerge ∧
                    b ∈ S.boneInfo ∧ nm = pathAppend b.name "1") := by
                refine accumFold_hierNames _ params nodes skels.enum
                  AccumState.initial st hacc ?_ ?_
                · intro p hp b hbp
                  have hmem : p.2 ∈ skels := by
                    have h1 : p.2 ∈ skels.enum.map Prod.snd :=
                      List.mem_map_of_mem Prod.snd hp
                    rwa [List.enum_map_snd] at h1
                  refine ⟨p.2, b, ?_, hbp, rfl⟩
                  exact addUniqueList_subset _ _
                    (extractAll_mem _ skels hex p.2 hmem)
                · intro k l hl
                  cases hl
              have hall := populateSkeleton_names _ st.hierarchy fuel bones
                hpop hnames
              intro e he
              obtain ⟨S, b, hS, hbS, hname⟩ := hall e he
              refine ⟨S, b, hS, hbS, hname, ?_⟩
              rw [hname]
              exact pathAppend_one_ne_self b.name

/-- Witness for C10: the duplicated-single-source merge emits exactly the
suffixed bone name `Root/1`, which differs from the source name `Root`. -/
theorem c10_witness :
    ∃ S b, some S ∈ [some oneBoneSkeleton, some oneBoneSkeleton] ∧
      b ∈ S.boneInfo ∧
      (⟨"Root/1", none, idT⟩ : EmittedBone).name = pathAppend b.name "1" ∧
      (⟨"Root/1", none, idT⟩ : EmittedBone).name ≠ b.name :=
  c10_output_names_suffixed
    ⟨[some oneBoneSkeleton, some oneBoneSkeleton], false, false⟩ [] 10
    [⟨"Root/1", none, idT⟩] [] rfl ⟨"Root/1", none, idT⟩ (by simp)

/-! ## Claim C9 (amended): source-level tree structure -/

/-- The parent index of bone `j` (`none` when out of range or parentless). -/
def parentOf (S : Skeleton) (j : Nat) : Option Nat :=
  match S.boneInfo.get? j with
  | none => none
  | some b => b.parentIndex

/-- Indices of the bones whose parent is `jp`, in index order. -/
def childIdx (S : Skeleton) (jp : Nat) : List Nat :=
  (List.range S.boneInfo.length).filter (fun j => parentOf S j = some jp)

/-- Preorder list of the strict descendants of `jp`, with recursion fuel. -/
def descendantsGo (S : Skeleton) : Nat → Nat → List Nat
  | 0, _ => []
  | f + 1, jp => (childIdx S jp).flatMap (fun c => c :: descendantsGo S f c)

/-- Strict-ancestor chain of bone `c` (parent first), with recursion fuel. -/
def ancGo (S : Skeleton) : Nat → Nat → List Nat
  | 0, _ => []
  | f + 1, c =>
    match parentOf S c with
    | none => []
    | some pc => pc :: ancGo S f pc

/-- Strict ancestors of bone `c` (`c + 1` fuel always suffices since parent
indices strictly decrease under well-formedness). -/
def anc (S : Skeleton) (c : Nat) : List Nat := ancGo S (c + 1) c

theorem parentOf_lt (S : Skeleton) (hwf : WellFormedSkeleton S) {j p : Nat}
    (h : parentOf S j = some p) : p < j ∧ j < S.boneInfo.length := by
  unfold parentOf at h
  cases hb : S.boneInfo.get? j with
  | none => rw [hb] at h; cases h
  | some b =>
    rw [hb] at h
    obtain ⟨hlen, hbi⟩ := List.get?_eq_some.mp hb
    refine ⟨?_, hlen⟩
    exact hwf.parentLt j hlen p (by rw [hbi]; exact h)

theorem mem_childIdx (S : Skeleton) {c jp : Nat} :
    c ∈ childIdx S jp ↔ c < S.boneInfo.length ∧ parentOf S c = some jp := by
  unfold childIdx
  rw [List.mem_filter, List.mem_range]
  simp

theorem ancGo_congr (S : Skeleton) (hwf : WellFormedSkeleton S) :
    ∀ c f1 f2, c < f1 → c < f2 → ancGo S f1 c = ancGo S f2 c := by
  intro c
  induction c using Nat.strong_induction_on with
  | _ c ih =>
    intro f1 f2 h1 h2
    cases f1 with
    | zero => omega
    | succ g1 =>
      cases f2 with
      | zero => omega
      | succ g2 =>
        show (match parentOf S c with
          | none => []
          | some pc => pc :: ancGo S g1 pc) =
          (match parentOf S c with
          | none => []
          | some pc => pc :: ancGo S g2 pc)
        cases hp : parentOf S c with
        | none => rfl
        | some pc =>
          have hlt := (parentOf_lt S hwf hp).1
          dsimp only
          rw [ih pc hlt g1 g2 (by omega) (by omega)]

theorem anc_eq_step (S : Skeleton) (hwf : WellFormedSkeleton S) {c pc : Nat}
    (hp : parentOf S c = some pc) : anc S c = pc :: anc S pc := by
  unfold anc
  show (match parentOf S c with
    | none => []
    | some pc => pc :: ancGo S c pc) = _
  rw [hp]
  dsimp only
  rw [ancGo_congr S hwf pc c (pc + 1) (parentOf_lt S hwf hp).1 (by omega)]

theorem anc_eq_nil (S : Skeleton) {c : Nat} (hp : parentOf S c = none) :
    anc S c = [] := by
  unfold anc
  show (match parentOf S c with
    | none => []
    | some pc => pc :: ancGo S c pc) = _
  rw [hp]

theorem anc_lt (S : Skeleton) (hwf : WellFormedSkeleton S) :
    ∀ c, ∀ x ∈ anc S c, x < c := by
  intro c
  induction c using Nat.strong_induction_on with
  | _ c ih =>
    intro x hx
    cases hp : parentOf S c with
    | none => rw [anc_eq_nil S hp] at hx; cases hx
    | some pc =>
      have hlt := (parentOf_lt S hwf hp).1
      rw [anc_eq_step S hwf hp] at hx
      rcases List.mem_cons.mp hx with h1 | h1
      · omega
      · have := ih pc hlt x h1
        omega

theorem anc_closed (S : Skeleton) (hwf : WellFormedSkeleton S) :
    ∀ c x p, x ∈ anc S c → parentOf S x = some p → p ∈ anc S c := by
  intro c
  induction c using Nat.strong_induction_on with
  | _ c ih =>
    intro x p hx hp
    cases hpc : parentOf S c with
    | none => rw [anc_eq_nil S hpc] at hx; cases hx
    | some pc =>
      have hlt := (parentOf_lt S hwf hpc).1
      rw [anc_eq_step S hwf hpc] at hx ⊢
      rcases List.mem_cons.mp hx with h1 | h1
      · subst h1
        rw [anc_eq_step S hwf hp]
        exact List.mem_cons_of_mem _ (List.mem_cons_self p _)
      · exact List.mem_cons_of_mem _ (ih pc hlt x p h1 hp)

theorem anc_child (S : Skeleton) (hwf : WellFormedSkeleton S) :
    ∀ c jp, jp ∈ anc S c →
      ∃ ch, parentOf S ch = some jp ∧ (ch = c ∨ ch ∈ anc S c) := by
  intro c
  induction c using Nat.strong_induction_on with
  | _ c ih =>
    intro jp hjp
    cases hpc : parentOf S c with
    | none => rw [anc_eq_nil S hpc] at hjp; cases hjp
    | some pc =>
      have hlt := (parentOf_lt S hwf hpc).1
      rw [anc_eq_step S hwf hpc] at hjp
      rcases List.mem_cons.mp hjp with h1 | h1
      · subst h1
        exact ⟨c, hpc, Or.inl rfl⟩
      · obtain ⟨ch, hch, hor⟩ := ih pc hlt jp h1
        refine ⟨ch, hch, Or.inr ?_⟩
        rw [anc_eq_step S hwf hpc]
        rcases hor with h2 | h2
        · rw [h2]
          exact List.mem_cons_self pc _
        · exact List.mem_cons_of_mem _ h2

theorem anc_chain (S : Skeleton) (hwf : WellFormedSkeleton S) :
    ∀ x c1 c2, c1 ∈ anc S x → c2 ∈ anc S x →
      c1 = c2 ∨ c1 ∈ anc S c2 ∨ c2 ∈ anc S c1 := by
  intro x
  induction x using Nat.strong_induction_on with
  | _ x ih =>
    intro c1 c2 h1 h2
    cases hpx : parentOf S x with
    | none => rw [anc_eq_nil S hpx] at h1; cases h1
    | some px =>
      have hlt := (parentOf_lt S hwf hpx).1
      rw [anc_eq_step S hwf hpx] at h1 h2
      rcases List.mem_cons.mp h1 with ha | ha <;>
        rcases List.mem_cons.mp h2 with hb | hb
      · exact Or.inl (ha.trans hb.symm)
      · subst ha
        exact Or.inr (Or.inr hb)
      · subst hb
        exact Or.inr (Or.inl ha)
      · exact ih px hlt c1 c2 ha hb

theorem anc_rootmem (S : Skeleton) (hwf : WellFormedSkeleton S) :
    ∀ j, 0 < j → j < S.boneInfo.length → 0 ∈ anc S j := by
  intro j
  induction j using Nat.strong_induction_on with
  | _ j ih =>
    intro hj hjn
    cases hp : parentOf S j with
    | none =>
      exfalso
      unfold parentOf at hp
      rw [List.get?_eq_get hjn] at hp
      have := hwf.rootAtZero j hjn hp
      omega
    | some pj =>
      have hlt := (parentOf_lt S hwf hp).1
      rw [anc_eq_step S hwf hp]
      by_cases hpj : pj = 0
      · rw [hpj]
        exact List.mem_cons_self 0 _
      · exact List.mem_cons_of_mem _ (ih pj hlt (by omega) (by omega))

/-- Membership characterization of the preorder descendant list: exactly the
in-range bones having `jp` among their strict ancestors. -/
theorem descGo_char (S : Skeleton) (hwf : WellFormedSkeleton S) :
    ∀ k jp, jp < S.boneInfo.length → S.boneInfo.length - jp ≤ k →
      ∀ c, c ∈ descendantsGo S k jp ↔
        (c < S.boneInfo.length ∧ jp ∈ anc S c) := by
  intro k
  induction k with
  | zero =>
    intro jp hjp hk
    omega
  | succ k ih =>
    intro jp hjp hk c
    show c ∈ (childIdx S jp).flatMap (fun ch => ch :: descendantsGo S k ch) ↔ _
    rw [List.mem_flatMap]
    constructor
    · rintro ⟨ch, hch, hc⟩
      obtain ⟨hchn, hchp⟩ := (mem_childIdx S).mp hch
      have hjpch := (parentOf_lt S hwf hchp).1
      rcases List.mem_cons.mp hc with h1 | h1
      · subst h1
        refine ⟨hchn, ?_⟩
        rw [anc_eq_step S hwf hchp]
        exact List.mem_cons_self jp _
      · obtain ⟨hcn, hanc⟩ := (ih ch hchn (by omega) c).mp h1
        exact ⟨hcn, anc_closed S hwf c ch jp hanc hchp⟩
    · rintro ⟨hcn, hjpc⟩
      obtain ⟨ch, hchp, hor⟩ := anc_child S hwf c jp hjpc
      have hjpch := (parentOf_lt S hwf hchp).1
      have hchn : ch < S.boneInfo.length := by
        rcases hor with h1 | h1
        · omega
        · have := anc_lt S hwf c ch h1
          omega
      refine ⟨ch, (mem_childIdx S).mpr ⟨hchn, hchp⟩, ?_⟩
      rcases hor with h1 | h1
      · rw [h1]
        exact List.mem_cons_self c _
      · refine List.mem_cons_of_mem _ ?_
        exact (ih ch hchn (by omega) c).mpr ⟨hcn, h1⟩

/-- Two distinct bones with the same parent are never ancestor-related. -/
theorem siblings_not_anc (S : Skeleton) (hwf : WellFormedSkeleton S)
    {c1 c2 jp : Nat} (h1 : parentOf S c1 = some jp)
    (h2 : parentOf S c2 = some jp) (h : c1 ∈ anc S c2) : False := by
  rw [anc_eq_step S hwf h2] at h
  rcases List.mem_cons.mp h with hx | hx
  · subst hx
    have := (parentOf_lt S hwf h1).1
    omega
  · have hlt := anc_lt S hwf jp c1 hx
    have := (parentOf_lt S hwf h1).1
    omega

theorem descGo_nodup (S : Skeleton) (hwf : WellFormedSkeleton S) :
    ∀ k jp, jp < S.boneInfo.length → S.boneInfo.length - jp ≤ k →
      (descendantsGo S k jp).Nodup := by
  intro k
  induction k with
  | zero =>
    intro jp hjp hk
    omega
  | succ k ih =>
    intro jp hjp hk
    show ((childIdx S jp).flatMap (fun ch => ch :: descendantsGo S k ch)).Nodup
    rw [List.nodup_flatMap]
    constructor
    · intro ch hch
      obtain ⟨hchn, hchp⟩ := (mem_childIdx S).mp hch
      have hjpch := (parentOf_lt S hwf hchp).1
      refine List.Nodup.cons ?_ (ih ch hchn (by omega))
      intro hmem
      have := ((descGo_char S hwf k ch hchn (by omega) ch).mp hmem).2
      exact absurd (anc_lt S hwf ch ch this) (by omega)
    · refine List.Pairwise.imp_of_mem ?_
        ((List.nodup_range S.boneInfo.length).filter _)
      intro c1 c2 hm1 hm2 hne x hx1 hx2
      obtain ⟨h1n, h1p⟩ := (mem_childIdx S).mp hm1
      obtain ⟨h2n, h2p⟩ := (mem_childIdx S).mp hm2
      have hj1 := (parentOf_lt S hwf h1p).1
      have hj2 := (parentOf_lt S hwf h2p).1
      have hx1' : x = c1 ∨ (x < S.boneInfo.length ∧ c1 ∈ anc S x) := by
        rcases List.mem_cons.mp hx1 with h | h
        · exact Or.inl h
        · exact Or.inr ((descGo_char S hwf k c1 h1n (by omega) x).mp h)
      have hx2' : x = c2 ∨ (x < S.boneInfo.length ∧ c2 ∈ anc S x) := by
        rcases List.mem_cons.mp hx2 with h | h
        · exact Or.inl h
        · exact Or.inr ((descGo_char S hwf k c2 h2n (by omega) x).mp h)
      rcases hx1' with ha | ⟨-, ha⟩ <;> rcases hx2' with hb | ⟨-, hb⟩
      · exact hne (ha.symm.trans hb)
      · subst ha
        exact siblings_not_anc S hwf h2p h1p hb
      · subst hb
        exact siblings_not_anc S hwf h1p h2p ha
      · rcases anc_chain S hwf x c1 c2 ha hb with h | h | h
        · exact hne h
        · exact siblings_not_anc S hwf h1p h2p h
        · exact siblings_not_anc S hwf h2p h1p h

/-- The root-led preorder traversal is a permutation of all bone indices. -/
theorem preorder_perm (S : Skeleton) (hwf : WellFormedSkeleton S)
    (hne : 0 < S.boneInfo.length) :
    (0 :: descendantsGo S S.boneInfo.length 0).Perm
      (List.range S.boneInfo.length) := by
  have hchar := descGo_char S hwf S.boneInfo.length 0 hne (by omega)
  have hnd : (0 :: descendantsGo S S.boneInfo.length 0).Nodup := by
    refine List.Nodup.cons ?_ (descGo_nodup S hwf S.boneInfo.length 0 hne (by omega))
    intro hmem
    have := ((hchar 0).mp hmem).2
    exact absurd (anc_lt S hwf 0 0 this) (by omega)
  refine List.Subperm.antisymm (List.subperm_of_subset hnd ?_)
    (List.subperm_of_subset (List.nodup_range _) ?_)
  · intro x hx
    rcases List.mem_cons.mp hx with h | h
    · rw [h, List.mem_range]
      exact hne
    · rw [List.mem_range]
      exact ((hchar x).mp h).1
  · intro x hx
    rw [List.mem_range] at hx
    by_cases hx0 : x = 0
    · rw [hx0]
      exact List.mem_cons_self 0 _
    · refine List.mem_cons_of_mem _ ?_
      exact (hchar x).mpr ⟨hx, anc_rootmem S hwf x (by omega) hx⟩

/-! ## Claim C9 (amended): path keys of a single well-formed source -/

theorem nameOf_get (S : Skeleton) {j : Nat} (hj : j < S.boneInfo.length) :
    nameOf S j = (S.boneInfo.get ⟨j, hj⟩).name := by
  unfold nameOf
  rw [List.get?_eq_get hj]
  rfl

theorem nameOf_inj (S : Skeleton) (hwf : WellFormedSkeleton S) {a b : Nat}
    (ha : a < S.boneInfo.length) (hb : b < S.boneInfo.length)
    (h : nameOf S a = nameOf S b) : a = b := by
  rw [nameOf_get S ha, nameOf_get S hb] at h
  have hmap : (S.boneInfo.map (fun b => b.name)).get ⟨a, by simpa using ha⟩ =
      (S.boneInfo.map (fun b => b.name)).get ⟨b, by simpa using hb⟩ := by
    rw [List.get_map, List.get_map]
    exact h
  have := (hwf.namesNodup.get_inj_iff).mp hmap
  simpa using this

theorem suffName_inj (S : Skeleton) (hwf : WellFormedSkeleton S) {a b : Nat}
    (ha : a < S.boneInfo.length) (hb : b < S.boneInfo.length)
    (h : suffName S a = suffName S b) : a = b := by
  have hslA : endsWithSlash (nameOf S a) = false := by
    rw [nameOf_get S ha]
    exact hwf.noSlash _ (List.get_mem _ _ _)
  have hslB : endsWithSlash (nameOf S b) = false := by
    rw [nameOf_get S hb]
    exact hwf.noSlash _ (List.get_mem _ _ _)
  exact nameOf_inj S hwf ha hb (pathAppend_one_injective hslA hslB h)

theorem nameChain_eq (S : Skeleton) (j : Nat) :
    nameChain S.boneInfo j = parentChain S.boneInfo j ++ [nameOf S j] := rfl

theorem strictKey_eq_root_iff (S : Skeleton) (hwf : WellFormedSkeleton S)
    {j : Nat} (hj : j < S.boneInfo.length) :
    strictKeySpec S rootParentHash j = rootParentHash ↔ j = 0 := by
  constructor
  · intro h
    by_contra hj0
    cases hp : (S.boneInfo.get ⟨j, hj⟩).parentIndex with
    | none => exact hj0 (hwf.rootAtZero j hj hp)
    | some pi =>
      unfold strictKeySpec at h
      rw [parentChain_eq_step S hwf j hj pi hp] at h
      unfold suffixedChain at h
      rw [List.map_append] at h
      simp only [List.map_cons, List.map_nil] at h
      rw [chainEncode_concat] at h
      unfold rootParentHash at h
      simp at h
  · intro h
    subst h
    cases hp : (S.boneInfo.get ⟨0, hj⟩).parentIndex with
    | some pi =>
      have := hwf.parentLt 0 hj pi hp
      omega
    | none =>
      unfold strictKeySpec
      rw [parentChain_root S 0 hj hp]
      rfl

theorem strictKey_eq_full_iff (S : Skeleton) (hwf : WellFormedSkeleton S)
    {j jp : Nat} (hj : j < S.boneInfo.length) (hjp : jp < S.boneInfo.length) :
    strictKeySpec S rootParentHash j = fullKeySpec S rootParentHash jp ↔
      parentOf S j = some jp := by
  rw [fullKeySpec_eq_encode]
  constructor
  · intro h
    have hchain : parentChain S.boneInfo j = nameChain S.boneInfo jp := by
      refine suffixedChain_inj _ _ ?_ ?_ (chainEncode_injective h)
      · intro nm hnm
        obtain ⟨b, hbmem, hbname⟩ := parentChain_mem S hwf j hj nm hnm
        rw [← hbname]
        exact hwf.noSlash b hbmem
      · exact nameChain_noSlash S hwf jp hjp
    cases hp : (S.boneInfo.get ⟨j, hj⟩).parentIndex with
    | none =>
      exfalso
      rw [parentChain_root S j hj hp, nameChain_eq] at hchain
      have := congrArg List.length hchain
      simp at this
    | some pi =>
      have hpi : pi < S.boneInfo.length := by
        have := hwf.parentLt j hj pi hp
        omega
      rw [parentChain_eq_step S hwf j hj pi hp, nameChain_eq] at hchain
      have hlast := congrArg List.getLast? hchain
      rw [List.getLast?_concat, List.getLast?_concat] at hlast
      have hpij : pi = jp := nameOf_inj S hwf hpi hjp (Option.some.inj hlast)
      unfold parentOf
      rw [List.get?_eq_get hj]
      dsimp only
      rw [hp, hpij]
  · intro h
    unfold parentOf at h
    rw [List.get?_eq_get hj] at h
    dsimp only at h
    unfold strictKeySpec
    rw [parentChain_eq_step S hwf j hj jp h, nameChain_eq]

theorem range_filter_zero : ∀ n : Nat, 0 < n →
    (List.range n).filter (fun j => decide (j = 0)) = [0] := by
  intro n
  induction n with
  | zero => omega
  | succ m ih =>
    intro h
    rw [List.range_succ, List.filter_append]
    by_cases hm : 0 < m
    · rw [ih hm]
      have hm1 : List.filter (fun j => decide (j = 0)) [m] = [] := by
        simp
        omega
      rw [hm1, List.append_nil]
    · have hm0 : m = 0 := by omega
      subst hm0
      rfl

theorem foldl_setAdd_eq (f : Nat → String) :
    ∀ (cs : List Nat) (acc : List String),
      (∀ c ∈ cs, f c ∉ acc) → (cs.map f).Nodup →
      cs.foldl (fun s j => setAdd s (f j)) acc = acc ++ cs.map f := by
  intro cs
  induction cs with
  | nil =>
    intro acc hnot hnd
    simp
  | cons c rest ih =>
    intro acc hnot hnd
    have hstep : setAdd acc (f c) = acc ++ [f c] := by
      unfold setAdd
      rw [if_neg (hnot c (List.mem_cons_self c rest))]
    show rest.foldl (fun s j => setAdd s (f j)) (setAdd acc (f c)) = _
    rw [hstep]
    rw [List.map_cons] at hnd
    have hnd' := List.Nodup.of_cons hnd
    have hhead : f c ∉ rest.map f := (List.nodup_cons.mp hnd).1
    rw [ih (acc ++ [f c]) ?_ hnd']
    · rw [List.append_assoc]
      rfl
    · intro x hx hmem
      rcases List.mem_append.mp hmem with h1 | h1
      · exact hnot x (List.mem_cons_of_mem c hx) h1
      · have : f x = f c := by simpa using h1
        exact hhead (this ▸ List.mem_map_of_mem f hx)

theorem childIdx_map_nodup (S : Skeleton) (hwf : WellFormedSkeleton S)
    (jp : Nat) : ((childIdx S jp).map (suffName S)).Nodup := by
  refine List.Nodup.map_on ?_ ((List.nodup_range S.boneInfo.length).filter _)
  intro x hx y hy hxy
  obtain ⟨hxn, -⟩ := (mem_childIdx S).mp hx
  obtain ⟨hyn, -⟩ := (mem_childIdx S).mp hy
  exact suffName_inj S hwf hxn hyn hxy

theorem setsSpec_fullKey (S : Skeleton) (hwf : WellFormedSkeleton S) {jp : Nat}
    (hjp : jp < S.boneInfo.length) :
    setsSpec S rootParentHash AccumState.initial S.boneInfo.length
      (fullKeySpec S rootParentHash jp) =
      match childIdx S jp with
      | [] => none
      | cs => some (cs.map (suffName S)) := by
  unfold setsSpec
  have hfilter : (List.range S.boneInfo.length).filter
      (fun j => decide (strictKeySpec S rootParentHash j =
        fullKeySpec S rootParentHash jp)) = childIdx S jp := by
    unfold childIdx
    refine List.filter_congr ?_
    intro x hx
    rw [List.mem_range] at hx
    rw [decide_eq_decide]
    exact strictKey_eq_full_iff S hwf hx hjp
  rw [hfilter]
  cases hcs : childIdx S jp with
  | nil => rfl
  | cons c rest =>
    rw [show mapFind? AccumState.initial.hierarchy.pathHashToBoneNames
        (fullKeySpec S rootParentHash jp) = none from rfl]
    dsimp only
    congr 1
    have hnd : ((c :: rest).map (suffName S)).Nodup := by
      rw [← hcs]
      exact childIdx_map_nodup S hwf jp
    rw [show (Option.getD (none : Option (List String)) []) = [] from rfl]
    rw [foldl_setAdd_eq (suffName S) (c :: rest) [] (by simp) hnd]
    rfl

theorem setsSpec_root (S : Skeleton) (hwf : WellFormedSkeleton S)
    (hne : 0 < S.boneInfo.length) :
    setsSpec S rootParentHash AccumState.initial S.boneInfo.length
      rootParentHash = some [suffName S 0] := by
  unfold setsSpec
  have hfilter : (List.range S.boneInfo.length).filter
      (fun j => decide (strictKeySpec S rootParentHash j = rootParentHash)) =
      [0] := by
    rw [show (List.range S.boneInfo.length).filter
        (fun j => decide (strictKeySpec S rootParentHash j = rootParentHash)) =
        (List.range S.boneInfo.length).filter (fun j => decide (j = 0)) from ?_]
    · exact range_filter_zero _ hne
    · refine List.filter_congr ?_
      intro x hx
      rw [List.mem_range] at hx
      rw [decide_eq_decide]
      exact strictKey_eq_root_iff S hwf hx
  rw [hfilter]
  rw [show mapFind? AccumState.initial.hierarchy.pathHashToBoneNames
      rootParentHash = none from rfl]
  dsimp only
  congr 1

theorem descendantsGo_succ (S : Skeleton) (k jp : Nat) :
    descendantsGo S (k + 1) jp =
      (childIdx S jp).flatMap (fun c => c :: descendantsGo S k c) := rfl

/-- Success of the emission recursion is monotone in the fuel. -/
theorem emitGo_mono (h : FMergedBoneHierarchy) :
    ∀ (f : Nat) (acc : List EmittedBone) (w : EmitWork) (res : List EmittedBone),
      emitGo h f acc w = some res → ∀ f', f ≤ f' → emitGo h f' acc w = some res := by
  intro f
  induction f with
  | zero =>
    intro acc w res hres
    rw [emitGo_zero] at hres
    cases hres
  | succ f ih =>
    intro acc w res hres f' hf'
    cases f' with
    | zero => omega
    | succ f2 =>
      have hf2 : f ≤ f2 := by omega
      cases w with
      | descend pn =>
        rw [emitGo_descend] at hres
        rw [emitGo_descend]
        cases hfind : mapFind? h.pathToBoneNames pn with
        | none =>
          rw [hfind] at hres
          cases hres
        | some ph =>
          rw [hfind] at hres
          dsimp only at hres ⊢
          cases hsets : mapFind? h.pathHashToBoneNames ph with
          | none =>
            rw [hsets] at hres
            dsimp only at hres ⊢
            exact hres
          | some cs =>
            rw [hsets] at hres
            dsimp only at hres ⊢
            exact ih acc (.children pn cs) res hres f2 hf2
      | children pn cs =>
        cases cs with
        | nil =>
          rw [emitGo_children_nil] at hres
          rw [emitGo_children_nil]
          exact hres
        | cons c rest =>
          rw [emitGo_children_cons] at hres
          rw [emitGo_children_cons]
          cases hp : mapFind? h.boneNamePose c with
          | none =>
            rw [hp] at hres
            dsimp only at hres
            cases hres
          | some pose =>
            rw [hp] at hres
            dsimp only at hres ⊢
            cases hrec : emitGo h f
                (acc ++ [⟨c, List.findIdx? (fun e => e.name = pn) acc, pose⟩])
                (.descend c) with
            | none =>
              rw [hrec] at hres
              dsimp only at hres
              cases hres
            | some acc2 =>
              rw [hrec] at hres
              dsimp only at hres
              rw [ih _ (.descend c) acc2 hrec f2 hf2]
              dsimp only
              exact ih acc2 (.children pn rest) res hres f2 hf2

/-- Name/pose projection of an emitted bone. -/
def projNP (e : EmittedBone) : String × Transform := (e.name, e.pose)

/-- Expected name/pose of the emitted occurrence of source bone `j`. -/
def projIdxNP (S : Skeleton) (j : Nat) : String × Transform :=
  (suffName S j, poseOf S j)

/-- Completeness of the emission recursion over a hierarchy built from one
well-formed source: descending below bone `jp` succeeds with enough fuel and
appends exactly the preorder descendant list of `jp`, each with its suffixed
name and recorded pose. -/
theorem emit_complete (S : Skeleton) (hwf : WellFormedSkeleton S)
    (h : FMergedBoneHierarchy)
    (hFull : ∀ jp, jp < S.boneInfo.length →
      mapFind? h.pathToBoneNames (suffName S jp) =
        some (fullKeySpec S rootParentHash jp))
    (hPose : ∀ j, j < S.boneInfo.length →
      mapFind? h.boneNamePose (suffName S j) = some (poseOf S j))
    (hSets : ∀ K, mapFind? h.pathHashToBoneNames K =
      setsSpec S rootParentHash AccumState.initial S.boneInfo.length K) :
    ∀ k jp, jp < S.boneInfo.length → S.boneInfo.length - jp ≤ k →
      ∀ acc, ∃ f res, emitGo h f acc (.descend (suffName S jp)) = some res ∧
        res.map projNP = acc.map projNP ++
          (descendantsGo S k jp).map (projIdxNP S) := by
  intro k
  induction k with
  | zero =>
    intro jp hjp hk
    omega
  | succ k ih =>
    intro jp hjp hk acc
    have hchildren : ∀ cs : List Nat, (∀ c ∈ cs, c ∈ childIdx S jp) →
        ∀ acc2 : List EmittedBone, ∃ f res, emitGo h f acc2
            (.children (suffName S jp) (cs.map (suffName S))) = some res ∧
          res.map projNP = acc2.map projNP ++
            (cs.flatMap (fun c => c :: descendantsGo S k c)).map (projIdxNP S) := by
      intro cs
      induction cs with
      | nil =>
        intro hmem acc2
        exact ⟨0 + 1, acc2, emitGo_children_nil h 0 acc2 (suffName S jp), by simp⟩
      | cons c rest ihc =>
        intro hmem acc2
        obtain ⟨hcn, hcp⟩ := (mem_childIdx S).mp (hmem c (List.mem_cons_self c rest))
        have hjpc := (parentOf_lt S hwf hcp).1
        obtain ⟨f1, res1, hf1, hp1⟩ := ih c hcn (by omega)
          (acc2 ++ [⟨suffName S c,
            List.findIdx? (fun e => e.name = suffName S jp) acc2, poseOf S c⟩])
        obtain ⟨f2, res2, hf2, hp2⟩ :=
          ihc (fun x hx => hmem x (List.mem_cons_of_mem c hx)) res1
        refine ⟨max f1 f2 + 1, res2, ?_, ?_⟩
        · rw [List.map_cons, emitGo_children_cons, hPose c hcn]
          dsimp only
          rw [emitGo_mono h f1 _ _ res1 hf1 (max f1 f2) (Nat.le_max_left f1 f2)]
          dsimp only
          exact emitGo_mono h f2 _ _ res2 hf2 (max f1 f2) (Nat.le_max_right f1 f2)
        · rw [hp2, hp1]
          simp only [List.flatMap_cons, List.map_append, List.map_cons,
            List.map_nil, List.append_assoc]
          rfl
    rcases hcsplit : childIdx S jp with _ | ⟨c, rest⟩
    · have hsets := hSets (fullKeySpec S rootParentHash jp)
      rw [setsSpec_fullKey S hwf hjp, hcsplit] at hsets
      refine ⟨0 + 1 + 1, acc, ?_, ?_⟩
      · rw [emitGo_descend, hFull jp hjp]
        dsimp only
        rw [hsets]
      · show acc.map projNP = acc.map projNP ++
          (descendantsGo S (k + 1) jp).map (projIdxNP S)
        rw [descendantsGo_succ, hcsplit]
        simp
    · have hsets := hSets (fullKeySpec S rootParentHash jp)
      rw [setsSpec_fullKey S hwf hjp, hcsplit] at hsets
      obtain ⟨f, res, hf, hp⟩ := hchildren (c :: rest)
        (fun x hx => hcsplit ▸ hx) acc
      refine ⟨f + 1, res, ?_, ?_⟩
      · rw [emitGo_descend, hFull jp hjp]
        dsimp only
        rw [hsets]
        dsimp only
        exact hf
      · rw [hp]
        show _ = acc.map projNP ++
          (descendantsGo S (k + 1) jp).map (projIdxNP S)
        rw [descendantsGo_succ, hcsplit]

/-- C9 (amended): merging a list holding the same well-formed skeleton `S`
twice (`AddUnique` deduplicates it to one source, cpp 806-810) succeeds with
enough recursion fuel and reproduces `S` up to the documented rename: the
output has exactly `S`'s bone count, and its (name, reference-pose) pairs are
a permutation of `S`'s bones with every name carrying the `"/1"` suffix
(cpp 912) and every pose equal to the source reference pose. The original
claim's "bone names equal those of S" fails (see the counterexample); count
and poses are reproduced. -/
theorem c9_duplicate_single_source (S : Skeleton) (hwf : WellFormedSkeleton S)
    (hne : 0 < S.boneInfo.length) :
    ∃ f0 bones, (∀ fuel, f0 ≤ fuel →
        MergeSkeletons ⟨[some S, some S], false, false⟩ [] fuel =
          .merged bones []) ∧
      (bones.map projNP).Perm
        ((List.range S.boneInfo.length).map (projIdxNP S)) ∧
      bones.length = S.boneInfo.length ∧
      (bones.map (fun e => e.name)).Perm
        (S.boneInfo.map (fun b => pathAppend b.name "1")) := by
  have hbranch : BranchHyp [] 0 S AccumState.initial rootParentHash (poseOf S)
      none := Or.inl ⟨rfl, rfl, rfl, fun j _ => rfl⟩
  obtain ⟨st1, hsrc, hinv⟩ := processSource_characterize
    ⟨[some S, some S], false, false⟩ [] 0 S hwf rfl
    AccumState.initial rootParentHash (poseOf S) none hbranch
  have hFull : ∀ jp, jp < S.boneInfo.length →
      mapFind? st1.hierarchy.pathToBoneNames (suffName S jp) =
        some (fullKeySpec S rootParentHash jp) := by
    intro jp hjp
    rw [hinv.findFull]
    unfold stepFind
    rw [idxOfSuffixed?_suffName S hwf jp hjp]
    dsimp only
    rw [if_pos hjp]
  have hPose : ∀ j, j < S.boneInfo.length →
      mapFind? st1.hierarchy.boneNamePose (suffName S j) = some (poseOf S j) := by
    intro j hj
    rw [hinv.findPose]
    unfold stepFind
    rw [idxOfSuffixed?_suffName S hwf j hj]
    dsimp only
    rw [if_pos hj]
  have hSets : ∀ K, mapFind? st1.hierarchy.pathHashToBoneNames K =
      setsSpec S rootParentHash AccumState.initial S.boneInfo.length K :=
    fun K => hinv.findSets K
  have hfailed : st1.bMergeSkeletonsFailed = false := hinv.failedEq
  obtain ⟨f, res, hemit, hproj⟩ := emit_complete S hwf st1.hierarchy hFull hPose
    hSets S.boneInfo.length 0 hne (by omega)
    [⟨suffName S 0, none, poseOf S 0⟩]
  have hresproj : res.map projNP =
      (0 :: descendantsGo S S.boneInfo.length 0).map (projIdxNP S) := by
    rw [hproj]
    rfl
  have hpermNP : (res.map projNP).Perm
      ((List.range S.boneInfo.length).map (projIdxNP S)) := by
    rw [hresproj]
    exact (preorder_perm S hwf hne).map (projIdxNP S)
  refine ⟨f, res, ?_, hpermNP, ?_, ?_⟩
  · intro fuel hfuel
    have hpop : st1.hierarchy.PopulateSkeleton fuel = some res := by
      unfold FMergedBoneHierarchy.PopulateSkeleton
      have hroot : mapFind? st1.hierarchy.pathHashToBoneNames rootParentHash =
          some [suffName S 0] := by
        rw [hSets rootParentHash]
        exact setsSpec_root S hwf hne
      rw [hroot]
      dsimp only
      rw [hPose 0 hne]
      dsimp only
      show emitGo st1.hierarchy fuel [⟨suffName S 0, none, poseOf S 0⟩]
        (.descend (suffName S 0)) = some res
      exact emitGo_mono st1.hierarchy f _ _ res hemit fuel hfuel
    unfold MergeSkeletons
    have hdup : addUniqueList [some S, some S] = [some S] := by
      simp [addUniqueList]
    rw [hdup]
    dsimp only
    rw [if_neg (show ¬([some S].length = 0) by simp)]
    rw [show extractAll [some S] = some [S] from rfl]
    dsimp only
    rw [if_neg (show ¬((List.map (fun x => x.boneInfo.length) [S]).sum = 0) from
      fun hc => by
        have h1 : S.boneInfo.length = 0 := by simpa using hc
        omega)]
    have hacc : accumulateSkeletons ⟨[some S, some S], false, false⟩ [] [S] =
        some st1 := by
      show processSource ⟨[some S, some S], false, false⟩ [] 0 S
        AccumState.initial = some st1
      exact hsrc
    rw [hacc]
    dsimp only
    rw [hfailed]
    rw [if_neg (show ¬(false = true) by simp)]
    rw [hpop]
    rfl
  · have := hpermNP.length_eq
    simpa using this
  · have hnames : res.map (fun e => e.name) = (res.map projNP).map Prod.fst := by
      rw [List.map_map]
      rfl
    have htgt : ((List.range S.boneInfo.length).map (projIdxNP S)).map Prod.fst =
        S.boneInfo.map (fun b => pathAppend b.name "1") := by
      rw [List.map_map]
      refine List.ext_get (by simp) ?_
      intro i h1 h2
      have hi : i < S.boneInfo.length := by simpa using h2
      rw [List.get_map, List.get_map, List.get_range]
      show (projIdxNP S i).fst = pathAppend (S.boneInfo.get ⟨i, hi⟩).name "1"
      unfold projIdxNP suffName
      rw [nameOf_get S hi]
    rw [hnames, ← htgt]
    exact hpermNP.map Prod.fst

/-- Witness for C9 (amended) at the concrete one-bone skeleton. -/
theorem c9_amended_witness :
    ∃ f0 bones, (∀ fuel, f0 ≤ fuel →
        MergeSkeletons ⟨[some oneBoneSkeleton, some oneBoneSkeleton], false,
          false⟩ [] fuel = .merged bones []) ∧
      (bones.map projNP).Perm
        ((List.range oneBoneSkeleton.boneInfo.length).map
          (projIdxNP oneBoneSkeleton)) ∧
      bones.length = oneBoneSkeleton.boneInfo.length ∧
      (bones.map (fun e => e.name)).Perm
        (oneBoneSkeleton.boneInfo.map (fun b => pathAppend b.name "1")) :=
  c9_duplicate_single_source oneBoneSkeleton
    (wfCheck_sound oneBoneSkeleton (by decide)) (by decide)

end SkeletalMeshMerger
